import Mathlib

/-!
Verification of the Mongoose document-store adapter (json-api repository).

The definitions below are shallow embeddings of the TypeScript/JavaScript
source: `src/db-adapters/Mongoose/MongooseAdapter.ts` and
`src/util/utils.js` (with the duplicate `deleteNested` in the untitled
utility module).  JavaScript values are modelled by the inductive `JVal`
(objects as insertion-ordered association lists); property access on
`null`/`undefined`, which throws in JavaScript, is modelled by `Option`
where the surrounding code can observe the throw.
-/

namespace JsonApi

/-- Model of a JavaScript value: `undefined`, `null`, booleans, integers,
strings, arrays, and plain objects (insertion-ordered key/value lists).
Property access on arrays and primitives is modelled as yielding
`undefined` (string index properties and array index properties are outside
the model). -/
inductive JVal where
  | jundefined : JVal
  | jnull : JVal
  | jbool : Bool → JVal
  | jnum : Int → JVal
  | jstr : String → JVal
  | jarr : List JVal → JVal
  | jobj : List (String × JVal) → JVal
deriving Repr

/-- JavaScript truthiness of a modelled value. -/
def JVal.truthy : JVal → Bool
  | .jundefined => false
  | .jnull => false
  | .jbool b => b
  | .jnum n => n != 0
  | .jstr s => s != ""
  | .jarr _ => true
  | .jobj _ => true

/-- Lookup of a key in an object key/value list (first occurrence). -/
def objGet (kvs : List (String × JVal)) (k : String) : Option JVal :=
  (kvs.find? (fun kv => kv.1 = k)).map Prod.snd

/-- Whether an object key/value list has `k` as an own property. -/
def objHas (kvs : List (String × JVal)) (k : String) : Bool :=
  kvs.any (fun kv => kv.1 = k)

/-- JavaScript property assignment on an object key/value list: overwrite
in place when the key exists, else append. -/
def objSet (kvs : List (String × JVal)) (k : String) (v : JVal) :
    List (String × JVal) :=
  if objHas kvs k then
    kvs.map (fun kv => if kv.1 = k then (k, v) else kv)
  else
    kvs ++ [(k, v)]

/-- JavaScript `delete obj[k]` on an object key/value list. -/
def objDelete (kvs : List (String × JVal)) (k : String) :
    List (String × JVal) :=
  kvs.filter (fun kv => kv.1 != k)

/-- JavaScript property read `v[k]`: `none` models a thrown `TypeError`
(access on `null`/`undefined`); missing keys and reads on primitives or
arrays yield `undefined`. -/
def jsGet : JVal → String → Option JVal
  | .jundefined, _ => none
  | .jnull, _ => none
  | .jobj kvs, k => some ((objGet kvs k).getD .jundefined)
  | _, _ => some .jundefined

/-- JavaScript `v.hasOwnProperty(k)`: `none` models the `TypeError` thrown
when `v` is `null`/`undefined`; primitives and arrays have no modelled own
properties. -/
def jsHasOwn : JVal → String → Option Bool
  | .jundefined, _ => none
  | .jnull, _ => none
  | .jobj kvs, k => some (objHas kvs k)
  | _, _ => some false

/-- Navigation of a dotted-path prefix, as in
`containingParts.reduce(((obj, part) => obj[part]), object)`:
`none` when some step throws. -/
def navigate (v : JVal) : List String → Option JVal
  | [] => some v
  | p :: ps => do navigate (← jsGet v p) ps

/-- JavaScript `s.split(sep)` for a one-character separator, on the
character list: splitting the empty string yields one empty segment, as in
JavaScript. -/
def jsSplitChars (sep : Char) : List Char → List (List Char)
  | [] => [[]]
  | c :: rest =>
    let r := jsSplitChars sep rest
    if c = sep then [] :: r
    else
      match r with
      | [] => [[c]]
      | w :: ws => (c :: w) :: ws

/-- JavaScript `s.split(sep)` for a one-character separator. -/
def jsSplit (sep : Char) (s : String) : List String :=
  (jsSplitChars sep s.data).map String.mk

/-- JavaScript `c.toUpperCase()` restricted to one character (ASCII). -/
def jsToUpperChar (c : Char) : Char :=
  if 97 ≤ c.toNat ∧ c.toNat ≤ 122 then Char.ofNat (c.toNat - 32) else c

/-- JavaScript `arr.join(sep)`. -/
def joinWith (sep : String) : List String → String
  | [] => ""
  | w :: ws => ws.foldl (fun acc x => acc ++ sep ++ x) w

/-- Rebuild of the value after `delete container[last]` performed at the end
of the container chain `parts` (the mutation in `deleteNested`, expressed on
the tree model). -/
def deleteAt (v : JVal) (parts : List String) (last : String) : JVal :=
  match parts with
  | [] =>
    match v with
    | .jobj kvs => .jobj (objDelete kvs last)
    | other => other
  | p :: ps =>
    match v with
    | .jobj kvs => .jobj (kvs.map (fun kv =>
        if kv.1 = p then (kv.1, deleteAt kv.2 ps last) else kv))
    | other => other

/-- Embedding of `deleteNested(path, object)` from `src/util/utils.js`: split
the path on dots, navigate all but the last segment, and delete the last
segment from the resulting container when it is an own property, returning
`true`; every failure (a throw during navigation or `hasOwnProperty`, or a
missing final property) is caught and yields `false` with the object
untouched. -/
def deleteNested (path : String) (object : JVal) : Bool × JVal :=
  let pathParts := jsSplit '.' path
  let lastPart := pathParts.getLast?.getD ""
  let containingParts := pathParts.dropLast
  match navigate object containingParts with
  | none => (false, object)
  | some container =>
    match jsHasOwn container lastPart with
    | none => (false, object)
    | some false => (false, object)
    | some true => (true, deleteAt object containingParts lastPart)

theorem navigate_nil (v : JVal) : navigate v [] = some v := rfl

theorem navigate_cons (v : JVal) (p : String) (ps : List String) :
    navigate v (p :: ps) = (jsGet v p).bind (fun w => navigate w ps) := rfl

theorem navigate_jundefined_ne_obj (ps : List String) (kvs : List (String × JVal)) :
    navigate JVal.jundefined ps ≠ some (JVal.jobj kvs) := by
  cases ps with
  | nil =>
    intro h
    rw [navigate_nil] at h
    injection h with h2
    exact JVal.noConfusion h2
  | cons p ps =>
    intro h
    rw [navigate_cons] at h
    have hg : jsGet JVal.jundefined p = none := rfl
    rw [hg] at h
    simp at h

theorem objGet_map_modify (kvs : List (String × JVal)) (p : String)
    (g : JVal → JVal) :
    objGet (kvs.map (fun kv => if kv.1 = p then (kv.1, g kv.2) else kv)) p
      = (objGet kvs p).map g := by
  induction kvs with
  | nil => simp [objGet]
  | cons kv rest ih =>
    by_cases h : kv.1 = p
    · simp [objGet, List.find?, h]
    · simpa [objGet, List.find?, h] using ih

/-- Navigation commutes with the nested deletion: deleting the final key at
the end of the chain and then re-navigating the chain reaches the container
with the key removed. -/
theorem navigate_deleteAt (parts : List String) (v : JVal)
    (kvs : List (String × JVal)) (last : String)
    (h : navigate v parts = some (JVal.jobj kvs)) :
    navigate (deleteAt v parts last) parts
      = some (JVal.jobj (objDelete kvs last)) := by
  induction parts generalizing v kvs with
  | nil =>
    simp [navigate] at h
    subst h
    simp [navigate, deleteAt]
  | cons p ps ih =>
    rw [navigate_cons] at h
    cases hv : jsGet v p with
    | none => rw [hv] at h; simp at h
    | some w =>
      rw [hv] at h
      rw [Option.some_bind] at h
      cases v with
      | jundefined => simp [jsGet] at hv
      | jnull => simp [jsGet] at hv
      | jobj kvs0 =>
        simp only [jsGet, Option.some.injEq] at hv
        cases hg : objGet kvs0 p with
        | none =>
          rw [hg] at hv
          simp at hv
          subst hv
          exact absurd h (navigate_jundefined_ne_obj ps kvs)
        | some w0 =>
          rw [hg] at hv
          simp at hv
          subst hv
          rw [navigate_cons]
          simp only [deleteAt, jsGet]
          rw [objGet_map_modify kvs0 p (fun x => deleteAt x ps last), hg]
          simpa using ih w0 kvs h
      | jbool b =>
        simp only [jsGet, Option.some.injEq] at hv
        subst hv
        exact absurd h (navigate_jundefined_ne_obj ps kvs)
      | jnum n =>
        simp only [jsGet, Option.some.injEq] at hv
        subst hv
        exact absurd h (navigate_jundefined_ne_obj ps kvs)
      | jstr s =>
        simp only [jsGet, Option.some.injEq] at hv
        subst hv
        exact absurd h (navigate_jundefined_ne_obj ps kvs)
      | jarr xs =>
        simp only [jsGet, Option.some.injEq] at hv
        subst hv
        exact absurd h (navigate_jundefined_ne_obj ps kvs)

theorem objHas_objDelete (kvs : List (String × JVal)) (k : String) :
    objHas (objDelete kvs k) k = false := by
  induction kvs with
  | nil => simp [objHas, objDelete]
  | cons kv rest ih =>
    by_cases h : kv.1 = k
    · simp only [objDelete] at ih ⊢
      simp [h, ih]
    · simp only [objDelete, objHas] at ih ⊢
      simp [h, ih]

/-- Claim C10: `deleteNested` never throws (it is a total function of the
path and the object); it returns `true` exactly when navigating the object
along all but the last dot-separated path segment yields an object container
having the last segment as an own property, in which case that property is
deleted from the result; in every other case (malformed path, a throw during
navigation, a non-object container, or a missing final property) it returns
`false` and leaves the object untouched. -/
theorem C10_deleteNested_total_and_exact (path : String) (object : JVal) :
    ((deleteNested path object).1 = true ↔
      ∃ kvs, navigate object (jsSplit '.' path).dropLast
              = some (JVal.jobj kvs)
        ∧ objHas kvs ((jsSplit '.' path).getLast?.getD "") = true)
    ∧ ((deleteNested path object).1 = false →
        (deleteNested path object).2 = object)
    ∧ ((deleteNested path object).1 = true →
        ∃ kvs, navigate (deleteNested path object).2
                (jsSplit '.' path).dropLast = some (JVal.jobj kvs)
          ∧ objHas kvs ((jsSplit '.' path).getLast?.getD "") = false) := by
  cases hnav : navigate object (jsSplit '.' path).dropLast with
  | none =>
    have hd : deleteNested path object = (false, object) := by
      unfold deleteNested; simp only [hnav]
    rw [hd]
    simp [hnav]
  | some container =>
    cases container with
    | jobj kvs =>
      by_cases hh : objHas kvs ((jsSplit '.' path).getLast?.getD "") = true
      · have hd : deleteNested path object
            = (true, deleteAt object (jsSplit '.' path).dropLast
                ((jsSplit '.' path).getLast?.getD "")) := by
          unfold deleteNested; simp only [hnav, jsHasOwn, hh]
        rw [hd]
        refine ⟨by simp [hnav, hh], by simp, fun _ => ?_⟩
        exact ⟨objDelete kvs ((jsSplit '.' path).getLast?.getD ""),
          navigate_deleteAt _ _ _ _ hnav,
          objHas_objDelete kvs ((jsSplit '.' path).getLast?.getD "")⟩
      · have hh2 : objHas kvs ((jsSplit '.' path).getLast?.getD "") = false :=
          Bool.not_eq_true _ ▸ (by simpa using hh)
        have hd : deleteNested path object = (false, object) := by
          unfold deleteNested; simp only [hnav, jsHasOwn, hh2]
        rw [hd]
        simp [hnav, hh2]
    | jundefined =>
      have hd : deleteNested path object = (false, object) := by
        unfold deleteNested; simp only [hnav, jsHasOwn]
      rw [hd]
      simp [hnav]
    | jnull =>
      have hd : deleteNested path object = (false, object) := by
        unfold deleteNested; simp only [hnav, jsHasOwn]
      rw [hd]
      simp [hnav]
    | jbool b =>
      have hd : deleteNested path object = (false, object) := by
        unfold deleteNested; simp only [hnav, jsHasOwn]
      rw [hd]
      simp [hnav]
    | jnum n =>
      have hd : deleteNested path object = (false, object) := by
        unfold deleteNested; simp only [hnav, jsHasOwn]
      rw [hd]
      simp [hnav]
    | jstr s =>
      have hd : deleteNested path object = (false, object) := by
        unfold deleteNested; simp only [hnav, jsHasOwn]
      rw [hd]
      simp [hnav]
    | jarr xs =>
      have hd : deleteNested path object = (false, object) := by
        unfold deleteNested; simp only [hnav, jsHasOwn]
      rw [hd]
      simp [hnav]

/-- Embedding of `APIError` as constructed by the adapter:
`new APIError(status, code, title, detail)` with `code` always `undefined`
at the construction sites modelled here. -/
structure APIError where
  status : Nat
  title : String
  detail : Option String
deriving Repr, DecidableEq

/-- The id filter of a Find or Delete query, of TypeScript type
`string | string[] | undefined`. -/
inductive IdOrIds where
  | undef : IdOrIds
  | one : String → IdOrIds
  | many : List String → IdOrIds
deriving Repr, DecidableEq

/-- Embedding of the TypeScript union type returned by `getIdQueryType`:
`["findOne", (_id : string)] | ["find", (_id.in : string[])] | ["find", ()]`. -/
inductive IdQueryMode where
  | findOneById : String → IdQueryMode
  | findByIds : List String → IdQueryMode
  | findAll : IdQueryMode
deriving Repr, DecidableEq

/-- Character class `[0-9a-fA-F]` of the primary-key format regex. -/
def isHexChar (c : Char) : Bool :=
  (decide (48 ≤ c.toNat) && decide (c.toNat ≤ 57)) ||
    (decide (97 ≤ c.toNat) && decide (c.toNat ≤ 102)) ||
    (decide (65 ≤ c.toNat) && decide (c.toNat ≤ 70))

/-- Embedding of `MongooseAdapter.idIsValid`: the id is a string matching
`[0-9a-fA-F]` exactly 24 times (the string type test of the source is
carried by the type of the argument). -/
def idIsValid (id : String) : Bool :=
  id.length == 24 && id.data.all isHexChar

/-- The 400 error thrown by `getIdQueryType` for an invalid id inside an
array filter. -/
def errInvalidId : APIError := ⟨400, "Invalid ID.", none⟩

/-- The 404 error thrown by `getIdQueryType` for an invalid single id. -/
def errInvalidSingleId : APIError :=
  ⟨404, "No matching resource found.", some "Invalid ID."⟩

/-- Embedding of `MongooseAdapter.getIdQueryType`: an array filter always
selects multi-document mode; a truthy string selects single-document mode;
`undefined` or the (falsy) empty string selects match-all mode.  When an ids
array was formed, any invalid member throws: with status 400 when the input
was an array, else with status 404. -/
def getIdQueryType (idOrIds : IdOrIds) : Except APIError IdQueryMode :=
  let modeAndIds : IdQueryMode × Option (List String) :=
    match idOrIds with
    | .many ids => (.findByIds ids, some ids)
    | .one s => if s ≠ "" then (.findOneById s, some [s]) else (.findAll, none)
    | .undef => (.findAll, none)
  match modeAndIds.2 with
  | some idsArray =>
    if !(idsArray.all idIsValid) then
      .error (match idOrIds with
        | .many _ => errInvalidId
        | _ => errInvalidSingleId)
    else
      .ok modeAndIds.1
  | none => .ok modeAndIds.1

/-- Claim C2, counterexample: the empty string is a single id that fails the
primary-key format, yet Find's id validation does not fail at all on it —
the empty string is falsy, so `getIdQueryType` treats it as "no id filter"
and returns match-all mode with no error, where the claim demands a 404. -/
theorem C2_counterexample_empty_single_id :
    idIsValid "" = false ∧ getIdQueryType (.one "") = .ok .findAll := by
  constructor
  · rfl
  · rfl

/-- Claim C2, amended: for an array id filter, any member failing the
24-hex-character primary-key format makes `getIdQueryType` fail with the
400 "Invalid ID." error; for a single NON-EMPTY id failing the format it
fails with the 404 "No matching resource found." error (the empty string,
being falsy, is instead treated as no id filter at all). -/
theorem C2_id_validation_asymmetry :
    (∀ ids : List String, ids.all idIsValid = false →
      getIdQueryType (.many ids) = .error errInvalidId)
    ∧ (∀ s : String, s ≠ "" → idIsValid s = false →
      getIdQueryType (.one s) = .error errInvalidSingleId) := by
  constructor
  · intro ids h
    simp [getIdQueryType, h]
  · intro s hne h
    simp [getIdQueryType, hne, h]

/-- Witness for C2 at concrete inputs: an array containing one malformed id
yields the 400 error and a malformed non-empty single id yields the 404
error. -/
theorem C2_id_validation_asymmetry_witness :
    getIdQueryType (.many ["ffffffffffffffffffffffff", "nope"])
        = .error errInvalidId
    ∧ getIdQueryType (.one "nope") = .error errInvalidSingleId :=
  ⟨C2_id_validation_asymmetry.1 ["ffffffffffffffffffffffff", "nope"]
      (by decide),
   C2_id_validation_asymmetry.2 "nope" (by decide) (by decide)⟩

/-- JavaScript `v.charAt(0).toUpperCase() + v.slice(1)` from
`toFriendlyName`; on the empty string it yields the empty string. -/
def ucFirst (v : String) : String :=
  match v.data with
  | [] => ""
  | c :: cs => String.mk (jsToUpperChar c :: cs)

/-- Character class `[A-Z]` used by the word regex of `toFriendlyName`. -/
def isCapAZ (c : Char) : Bool :=
  decide (65 ≤ c.toNat) && decide (c.toNat ≤ 90)

/-- Embedding of the repeated `exec` of the word regex
`[A-Z]([A-Z]*(?![^A-Z])|[^A-Z]*)` over the pascal-cased string: a match
starts at a capital; a maximal following run of capitals is kept whole when
it reaches the end of the string, gives back its last capital (where the
next word then starts) when a non-capital follows, and when the run is
empty the word takes the maximal following run of non-capitals.  Characters
before a match start are skipped, as `exec` does. -/
def extractWordsGo : Nat → List Char → List String
  | 0, _ => []
  | _ + 1, [] => []
  | fuel + 1, c :: rest =>
    if isCapAZ c then
      let caps := rest.takeWhile isCapAZ
      if caps.isEmpty then
        let lows := rest.takeWhile (fun x => !(isCapAZ x))
        String.mk (c :: lows) :: extractWordsGo fuel (rest.drop lows.length)
      else
        let afterCaps := rest.drop caps.length
        if afterCaps.isEmpty then
          [String.mk (c :: caps)]
        else
          String.mk (c :: caps.dropLast)
            :: extractWordsGo fuel (caps.getLastD 'A' :: afterCaps)
    else
      extractWordsGo fuel rest

/-- Wrapper running the scan with enough fuel: every step of the scan either
consumes at least one character of the remaining list or stops at the next
step, so `length + 2` steps always reach the end of the string. -/
def extractWords (l : List Char) : List String :=
  extractWordsGo (l.length + 2) l

/-- Embedding of `MongooseAdapter.toFriendlyName`: split on dots, upper-case
each segment's first character, concatenate, then re-segment with the
acronym-aware word regex and join the words with spaces. -/
def toFriendlyName (pathOrModelName : String) : String :=
  let pascalCasedString :=
    String.join ((jsSplit '.' pathOrModelName).map ucFirst)
  joinWith " " (extractWords pascalCasedString.data)

/-- Claim C8: `toFriendlyName "inMLBTeam"` is `"In MLB Team"` (the acronym
run of capitals is kept as one word) and `toFriendlyName "created.at"` is
`"Created At"` (dot-separated segments are upper-cased, concatenated, and
re-segmented into space-separated words). -/
theorem C8_toFriendlyName_examples :
    toFriendlyName "inMLBTeam" = "In MLB Team"
    ∧ toFriendlyName "created.at" = "Created At" := by
  constructor
  · decide
  · decide

/-- Lookup in a generic association list (first matching key). -/
def assocGet {α : Type} (l : List (String × α)) (k : String) : Option α :=
  (l.find? (fun e => e.1 = k)).map Prod.snd

/-- JavaScript keyed assignment on a generic association list. -/
def assocSet {α : Type} (l : List (String × α)) (k : String) (v : α) :
    List (String × α) :=
  if l.any (fun e => e.1 = k) then
    l.map (fun e => if e.1 = k then (k, v) else e)
  else
    l ++ [(k, v)]

/-- The linkage value wrapped by `new Linkage(...)` in `docToResource`:
either a single optional (type, id) identifier — the to-one shape — or a
list of optional identifiers — the to-many shape. -/
inductive LinkageVal where
  | single : Option (String × String) → LinkageVal
  | many : List (Option (String × String)) → LinkageVal
deriving Repr, DecidableEq

/-- The Resource produced by `docToResource`: type, id, attributes and
relationships (each relationship wraps one linkage value). -/
structure Resource where
  type : String
  id : String
  attrs : List (String × JVal)
  relationships : List (String × LinkageVal)
deriving Repr

/-- Schema metadata that `docToResource` reads from `doc.constructor`: the
version and discriminator key names from the schema options, the declared
reference (relationship) paths (`util.getReferencePaths`), and each path's
referenced model name (`util.getReferencedModelName`); those two utilities
live outside `src`, so they are carried here as data.  `refCardToMany`
records which reference paths the schema declares as arrays (to-many);
`docToResource` itself never reads it — it is carried only so that claims
about declared cardinality can be stated. -/
structure ModelSchema where
  versionKey : String
  discriminatorKey : String
  refPaths : List String
  refModelNames : List (String × String)
  refCardToMany : List (String × Bool)
deriving Repr

/-- Serialized mongoose document as consumed by `docToResource`: the model
name (`doc.constructor.modelName`), the `doc.id` virtual, and the result of
`doc.toJSON` with virtuals and getters applied. -/
structure MDoc where
  modelName : String
  docId : String
  json : List (String × JVal)
deriving Repr

/-- JavaScript `c.toLowerCase()` for one character (ASCII). -/
def jsToLowerChar (c : Char) : Char :=
  if 65 ≤ c.toNat ∧ c.toNat ≤ 90 then Char.ofNat (c.toNat + 32) else c

/-- The regex replacement `modelName.replace(/([A-Z])/g, "-$1")` of
`getType`: a dash is inserted before every capital letter. -/
def dashify (s : String) : String :=
  String.mk (s.data.foldr
    (fun c acc => if isCapAZ c then '-' :: c :: acc else c :: acc) [])

/-- Embedding of `MongooseAdapter.getType`: dashify the model name, drop the
first character, lower-case, pluralize. -/
def getType (modelName : String) (pluralizer : String → String) : String :=
  pluralizer (String.mk (((dashify modelName).data.drop 1).map jsToLowerChar))

/-- Embedding of `MongooseAdapter.getReferencedType`: the referenced model
name at the path (via the out-of-src `util.getReferencedModelName`, carried
as schema data) run through `getType`. -/
def getReferencedType (schema : ModelSchema) (path : String)
    (pluralizer : String → String) : String :=
  getType ((assocGet schema.refModelNames path).getD "") pluralizer

/-- JavaScript `String(v)` conversion, restricted to the shapes that occur
as linkage values (array stringification is collapsed to the empty string —
linkage entries are never arrays in the adapter's data). -/
def jsToString : JVal → String
  | .jstr s => s
  | .jnum n => toString n
  | .jbool b => if b then "true" else "false"
  | .jnull => "null"
  | .jundefined => "undefined"
  | .jarr _ => ""
  | .jobj _ => "[object Object]"

/-- The id extraction of `docToResource` lines 521-532: a truthy value with
a truthy `_id` own property yields `String(value._id)`; any other truthy
value yields `String(value)`; a falsy value yields null. -/
def linkageIdOrNull (docOrIdOrNull : JVal) : Option String :=
  if docOrIdOrNull.truthy
      && ((jsGet docOrIdOrNull "_id").getD .jundefined).truthy then
    some (jsToString ((jsGet docOrIdOrNull "_id").getD .jundefined))
  else if docOrIdOrNull.truthy then
    some (jsToString docOrIdOrNull)
  else
    none

/-- The linkage built by `docToResource` for the raw value found at a
reference path: a non-array value is treated as to-one (wrapped, processed,
unwrapped), an array as to-many (each entry processed in order).  The
declared schema cardinality is never consulted. -/
def linkageFor (jsonValAtPath : JVal) (referencedType : String) : LinkageVal :=
  match jsonValAtPath with
  | .jarr xs =>
    .many (xs.map (fun v =>
      (linkageIdOrNull v).map (fun i => (referencedType, i))))
  | v => .single ((linkageIdOrNull v).map (fun i => (referencedType, i)))

/-- One iteration of the `refPaths.forEach` loop of `docToResource`: skip
the path when a field set for the type exists and omits it; otherwise read
the raw value by reducing property access over the split path (`none`
models the TypeError thrown when that access hits null/undefined), delete
the path from the attributes, and store the relationship built from the raw
value read before the deletion. -/
def processRefPath (schema : ModelSchema) (pluralizer : String → String)
    (fieldsForType : Option (List String))
    (st : List (String × JVal) × List (String × LinkageVal))
    (path : String) :
    Option (List (String × JVal) × List (String × LinkageVal)) :=
  let attrs := st.1
  let rels := st.2
  let skip :=
    match fieldsForType with
    | some flist => !(flist.contains path)
    | none => false
  if skip then
    some st
  else
    match navigate (.jobj attrs) (jsSplit '.' path) with
    | none => none
    | some jsonValAtPath =>
      let referencedType := getReferencedType schema path pluralizer
      let attrsAfterDelete :=
        match (deleteNested path (.jobj attrs)).2 with
        | .jobj kvs => kvs
        | _ => attrs
      some (attrsAfterDelete,
        assocSet rels path (linkageFor jsonValAtPath referencedType))

/-- The four bookkeeping deletions of `docToResource`: the `id` virtual,
`_id`, the version key and the discriminator key are removed from the
serialized attributes. -/
def cleanAttrs (doc : MDoc) (schema : ModelSchema) : List (String × JVal) :=
  objDelete (objDelete (objDelete (objDelete doc.json "id") "_id")
    schema.versionKey) schema.discriminatorKey

/-- The field-selection pass of `docToResource` lines 478-486: when a field
list is supplied for the type, a fresh attribute object is built keeping, in
field-list order, exactly the listed attributes whose current value is
truthy (`if (attrs[field])`). -/
def selectFields (attrs0 : List (String × JVal)) (flist : List String) :
    List (String × JVal) :=
  flist.foldl (fun newAttrs field =>
    match objGet attrs0 field with
    | some v => if v.truthy then objSet newAttrs field v else newAttrs
    | none => newAttrs) []

/-- Embedding of `MongooseAdapter.docToResource`: resolve the type, clean
and field-select the attributes, then move every declared reference path
into relationships; `none` models a thrown TypeError during the property
navigation of a reference path. -/
def docToResource (doc : MDoc) (schema : ModelSchema)
    (pluralizer : String → String)
    (fields : Option (List (String × List String))) : Option Resource :=
  let type := getType doc.modelName pluralizer
  let attrs0 := cleanAttrs doc schema
  let fieldsForType : Option (List String) :=
    match fields with
    | none => none
    | some f => assocGet f type
  let attrs1 :=
    match fieldsForType with
    | some flist => selectFields attrs0 flist
    | none => attrs0
  let finalSt := schema.refPaths.foldl
    (fun acc path =>
      acc.bind (fun st => processRefPath schema pluralizer fieldsForType st path))
    (some (attrs1, []))
  finalSt.map (fun st => ⟨type, doc.docId, st.1, st.2⟩)

/-- Fixed pluralizer used for the concrete examples: append an s. -/
def pluralS (s : String) : String := s ++ "s"

theorem objGet_cons_ne (e : String × JVal) (rest : List (String × JVal))
    (k : String) (hek : ¬ e.1 = k) :
    objGet (e :: rest) k = objGet rest k := by
  simp [objGet, List.find?, hek]

theorem objGet_objDelete_ne (l : List (String × JVal)) (q k : String)
    (h : k ≠ q) : objGet (objDelete l q) k = objGet l k := by
  induction l with
  | nil => rfl
  | cons e rest ih =>
    by_cases he : e.1 = q
    · have h1 : objDelete (e :: rest) q = objDelete rest q := by
        simp [objDelete, List.filter_cons, he]
      have hek : ¬ e.1 = k := by
        rw [he]; exact fun hc => h hc.symm
      rw [h1, ih, objGet_cons_ne e rest k hek]
    · have h1 : objDelete (e :: rest) q = e :: objDelete rest q := by
        simp [objDelete, List.filter_cons, he]
      by_cases hek : e.1 = k
      · rw [h1]
        simp [objGet, List.find?, hek]
      · rw [h1, objGet_cons_ne e (objDelete rest q) k hek,
          objGet_cons_ne e rest k hek, ih]

theorem objDelete_of_not_has (l : List (String × JVal)) (q : String)
    (h : objHas l q = false) : objDelete l q = l := by
  rw [objDelete, List.filter_eq_self]
  intro e he
  simp only [objHas, List.any_eq_false] at h
  simpa using h e he

theorem assocSet_append_of_fresh {α : Type} (l : List (String × α))
    (k : String) (v : α) (h : l.any (fun e => e.1 = k) = false) :
    assocSet l k v = l ++ [(k, v)] := by
  rw [assocSet, if_neg]
  simp [h]

theorem navigate_jobj_single (attrs : List (String × JVal)) (q : String) :
    navigate (.jobj attrs) [q] = some ((objGet attrs q).getD .jundefined) := rfl

theorem deleteNested_single_segment (q : String)
    (attrs : List (String × JVal)) (hq : jsSplit '.' q = [q]) :
    (deleteNested q (.jobj attrs)).2 = .jobj (objDelete attrs q) := by
  unfold deleteNested
  simp only [hq, List.getLast?, List.dropLast, Option.getD_some, navigate_nil]
  cases h : objHas attrs q with
  | true => simp [jsHasOwn, h, deleteAt]
  | false => simp [jsHasOwn, h, objDelete_of_not_has attrs q h]

/-- One refPath iteration on a single-segment path with no field selection:
the raw value is looked up directly, the key is deleted from the attributes,
and the relationship entry is appended. -/
theorem processRefPath_single (schema : ModelSchema) (pl : String → String)
    (attrs : List (String × JVal)) (rels : List (String × LinkageVal))
    (q : String) (hq : jsSplit '.' q = [q])
    (hfresh : rels.any (fun e => e.1 = q) = false) :
    processRefPath schema pl none (attrs, rels) q
      = some (objDelete attrs q,
          rels ++ [(q, linkageFor ((objGet attrs q).getD .jundefined)
            (getReferencedType schema q pl))]) := by
  unfold processRefPath
  simp only [Bool.false_eq_true, if_false, hq, navigate_jobj_single,
    deleteNested_single_segment q attrs hq,
    assocSet_append_of_fresh rels q _ hfresh]

/-- The relationship-building fold of `docToResource`, on nodup
single-segment paths and without field selection: it never throws, deletes
exactly the reference-path keys from the attributes, and appends one
relationship per path built from the attribute value the path had on
entry. -/
theorem foldProcess (schema : ModelSchema) (pl : String → String)
    (paths : List String) (attrs : List (String × JVal))
    (rels : List (String × LinkageVal))
    (hsplit : ∀ q ∈ paths, jsSplit '.' q = [q])
    (hnd : paths.Nodup)
    (hfresh : ∀ q ∈ paths, rels.any (fun e => e.1 = q) = false) :
    ∃ attrsF,
      paths.foldl (fun acc path => acc.bind
          (fun st => processRefPath schema pl none st path)) (some (attrs, rels))
        = some (attrsF,
            rels ++ paths.map (fun q =>
              (q, linkageFor ((objGet attrs q).getD .jundefined)
                    (getReferencedType schema q pl)))) := by
  induction paths generalizing attrs rels with
  | nil => exact ⟨attrs, by simp⟩
  | cons q qs ih =>
    have hq : jsSplit '.' q = [q] := hsplit q (by simp)
    have hfq : rels.any (fun e => e.1 = q) = false := hfresh q (by simp)
    have hstep := processRefPath_single schema pl attrs rels q hq hfq
    have hqs : ∀ x ∈ qs, jsSplit '.' x = [x] :=
      fun x hx => hsplit x (by simp [hx])
    have hndq : qs.Nodup := hnd.of_cons
    have hqnotin : q ∉ qs := by
      intro hcon
      exact (List.nodup_cons.mp hnd).1 hcon
    have hfresh2 : ∀ x ∈ qs,
        (rels ++ [(q, linkageFor ((objGet attrs q).getD .jundefined)
          (getReferencedType schema q pl))]).any (fun e => e.1 = x) = false := by
      intro x hx
      have h1 : rels.any (fun e => e.1 = x) = false := hfresh x (by simp [hx])
      have h2 : q ≠ x := fun hcon => hqnotin (hcon ▸ hx)
      simp [List.any_append, h1, h2]
    obtain ⟨attrsF, hF⟩ := ih (objDelete attrs q)
      (rels ++ [(q, linkageFor ((objGet attrs q).getD .jundefined)
        (getReferencedType schema q pl))]) hqs hndq hfresh2
    refine ⟨attrsF, ?_⟩
    have hcongr : qs.map (fun x =>
          (x, linkageFor ((objGet (objDelete attrs q) x).getD .jundefined)
            (getReferencedType schema x pl)))
        = qs.map (fun x =>
          (x, linkageFor ((objGet attrs x).getD .jundefined)
            (getReferencedType schema x pl))) := by
      refine List.map_congr_left (fun x hx => ?_)
      have hxq : x ≠ q := fun hcon => hqnotin (hcon ▸ hx)
      rw [objGet_objDelete_ne attrs q x hxq]
    rw [List.foldl_cons, Option.some_bind, hstep, hF, hcongr]
    simp [List.append_assoc]

/-- Example schema declaring one reference path "tags" that the schema marks
to-many (`refCardToMany`), referencing model "Tag". -/
def exSchemaC1 : ModelSchema :=
  ⟨"__v", "__t", ["tags"], [("tags", "Tag")], [("tags", true)]⟩

/-- Example document whose raw value at the to-many path "tags" is null. -/
def exDocC1 : MDoc :=
  ⟨"Post", "p1", [("title", .jstr "hi"), ("tags", .jnull)]⟩

/-- Example document whose raw value at "tags" is a one-element array. -/
def exDocC1w : MDoc :=
  ⟨"Post", "p1", [("tags", .jarr [.jstr "t1"])]⟩

/-- Claim C1, counterexample: the schema declares "tags" to-many, yet for a
document whose raw value at "tags" is null, `docToResource` produces a
single (non-list) `Linkage(null)` for it — the claim demands a list
(possibly empty) for every declared to-many path even when the raw value is
null or absent.  `docToResource` decides the shape from `Array.isArray` on
the raw value and never consults the declared cardinality. -/
theorem C1_counterexample_to_many_null :
    assocGet exSchemaC1.refCardToMany "tags" = some true
    ∧ docToResource exDocC1 exSchemaC1 pluralS none
        = some ⟨"posts", "p1", [("title", .jstr "hi")],
            [("tags", .single none)]⟩
    ∧ ∀ es, LinkageVal.single none ≠ LinkageVal.many es := by
  refine ⟨rfl, rfl, ?_⟩
  intro es h
  exact LinkageVal.noConfusion h

/-- Claim C1, amended: the linkage shape follows the raw value, not the
declared cardinality — (1) the produced linkage is a list exactly when the
raw value at the path is an array, so on documents where the store supplies
arrays at declared to-many paths and non-arrays at to-one paths the claim's
shape guarantee holds; (2) a null or absent raw value yields
`Linkage(null)`, never an empty list — including at a declared to-many
path; (3) for every document mapped without field selection over nodup
single-segment reference paths, each reference path's relationship is
exactly the linkage built from the cleaned attributes' raw value at that
path. -/
theorem C1_linkage_shape :
    (∀ (v : JVal) (rt : String),
      (∃ xs, v = .jarr xs) ↔ (∃ es, linkageFor v rt = .many es))
    ∧ (∀ rt, linkageFor .jnull rt = .single none
        ∧ linkageFor .jundefined rt = .single none)
    ∧ (∀ (doc : MDoc) (schema : ModelSchema) (pl : String → String)
        (res : Resource),
        (∀ q ∈ schema.refPaths, jsSplit '.' q = [q]) →
        schema.refPaths.Nodup →
        docToResource doc schema pl none = some res →
        ∀ p ∈ schema.refPaths,
          (p, linkageFor ((objGet (cleanAttrs doc schema) p).getD .jundefined)
              (getReferencedType schema p pl)) ∈ res.relationships) := by
  refine ⟨?_, ?_, ?_⟩
  · intro v rt
    constructor
    · rintro ⟨xs, rfl⟩
      exact ⟨_, rfl⟩
    · rintro ⟨es, h⟩
      cases v with
      | jarr xs => exact ⟨xs, rfl⟩
      | jundefined => exact absurd h (by simp [linkageFor])
      | jnull => exact absurd h (by simp [linkageFor])
      | jbool b => exact absurd h (by simp [linkageFor])
      | jnum n => exact absurd h (by simp [linkageFor])
      | jstr s => exact absurd h (by simp [linkageFor])
      | jobj kvs => exact absurd h (by simp [linkageFor])
  · intro rt
    exact ⟨rfl, rfl⟩
  · intro doc schema pl res hsplit hnd hres p hp
    obtain ⟨attrsF, hF⟩ := foldProcess schema pl schema.refPaths
      (cleanAttrs doc schema) [] hsplit hnd (fun q _ => rfl)
    unfold docToResource at hres
    simp only [hF, Option.map_some', Option.some.injEq] at hres
    subst hres
    simp only [List.nil_append]
    exact List.mem_map_of_mem _ hp

/-- Witness for C1 at a concrete document: a to-many raw array yields a
list-shaped relationship entry. -/
theorem C1_linkage_shape_witness :
    ∃ res, docToResource exDocC1w exSchemaC1 pluralS none = some res
      ∧ ("tags",
          linkageFor ((objGet (cleanAttrs exDocC1w exSchemaC1) "tags").getD
            .jundefined) (getReferencedType exSchemaC1 "tags" pluralS))
          ∈ res.relationships := by
  refine ⟨⟨"posts", "p1", [], [("tags", .many [some ("tags", "t1")])]⟩,
    rfl, ?_⟩
  exact C1_linkage_shape.2.2 exDocC1w exSchemaC1 pluralS
    ⟨"posts", "p1", [], [("tags", .many [some ("tags", "t1")])]⟩
    (by decide) (by decide) rfl "tags" (by decide)

theorem objSet_append_of_not_has (l : List (String × JVal)) (k : String)
    (v : JVal) (h : objHas l k = false) : objSet l k v = l ++ [(k, v)] := by
  rw [objSet, if_neg]
  simp [h]

/-- Membership characterization of the field-selection fold, generalized
over the accumulator. -/
theorem selectFields_go_mem (attrs0 : List (String × JVal))
    (flist : List String) (acc : List (String × JVal))
    (hnd : flist.Nodup) (hdisj : ∀ e ∈ acc, e.1 ∉ flist)
    (k : String) (v : JVal) :
    ((k, v) ∈ flist.foldl (fun newAttrs field =>
        match objGet attrs0 field with
        | some v2 => if v2.truthy then objSet newAttrs field v2 else newAttrs
        | none => newAttrs) acc) ↔
      ((k, v) ∈ acc
        ∨ (k ∈ flist ∧ objGet attrs0 k = some v ∧ v.truthy = true)) := by
  induction flist generalizing acc with
  | nil => simp
  | cons f fs ih =>
    have hndfs : fs.Nodup := hnd.of_cons
    have hfnotfs : f ∉ fs := (List.nodup_cons.mp hnd).1
    rw [List.foldl_cons]
    cases hg : objGet attrs0 f with
    | none =>
      dsimp only
      rw [ih acc hndfs (fun e he hc => hdisj e he (by simp [hc]))]
      constructor
      · rintro (h1 | ⟨h2, h3, h4⟩)
        · exact Or.inl h1
        · exact Or.inr ⟨by simp [h2], h3, h4⟩
      · rintro (h1 | ⟨h2, h3, h4⟩)
        · exact Or.inl h1
        · rcases List.mem_cons.mp h2 with rfl | h2b
          · rw [hg] at h3; exact absurd h3 (by simp)
          · exact Or.inr ⟨h2b, h3, h4⟩
    | some v0 =>
      by_cases ht : v0.truthy = true
      · have hfresh : objHas acc f = false := by
          rw [objHas]
          rw [List.any_eq_false]
          intro e he
          simp only [decide_eq_true_eq]
          exact fun hc => hdisj e he (by simp [hc])
        have hdisj2 : ∀ e ∈ acc ++ [(f, v0)], e.1 ∉ fs := by
          intro e he
          rcases List.mem_append.mp he with h1 | h2
          · exact fun hc => hdisj e h1 (by simp [hc])
          · simp only [List.mem_singleton] at h2
            subst h2
            exact hfnotfs
        dsimp only
        rw [if_pos ht, objSet_append_of_not_has acc f v0 hfresh,
          ih (acc ++ [(f, v0)]) hndfs hdisj2]
        constructor
        · rintro (h1 | ⟨h2, h3, h4⟩)
          · rcases List.mem_append.mp h1 with ha | hb
            · exact Or.inl ha
            · simp only [List.mem_singleton, Prod.mk.injEq] at hb
              refine Or.inr ⟨by simp [hb.1], ?_, ?_⟩
              · rw [hb.1, hg, hb.2]
              · rw [hb.2]; exact ht
          · exact Or.inr ⟨by simp [h2], h3, h4⟩
        · rintro (h1 | ⟨h2, h3, h4⟩)
          · exact Or.inl (List.mem_append.mpr (Or.inl h1))
          · rcases List.mem_cons.mp h2 with rfl | h2b
            · rw [hg] at h3
              have hv : v = v0 := by
                injection h3 with h3e
                exact h3e.symm
              subst hv
              exact Or.inl (List.mem_append.mpr (Or.inr (by simp)))
            · exact Or.inr ⟨h2b, h3, h4⟩
      · dsimp only
        rw [if_neg ht, ih acc hndfs (fun e he hc => hdisj e he (by simp [hc]))]
        constructor
        · rintro (h1 | ⟨h2, h3, h4⟩)
          · exact Or.inl h1
          · exact Or.inr ⟨by simp [h2], h3, h4⟩
        · rintro (h1 | ⟨h2, h3, h4⟩)
          · exact Or.inl h1
          · rcases List.mem_cons.mp h2 with rfl | h2b
            · rw [hg] at h3
              have hv : v = v0 := by
                injection h3 with h3e
                exact h3e.symm
              subst hv
              exact absurd h4 ht
            · exact Or.inr ⟨h2b, h3, h4⟩

/-- Membership characterization of `selectFields` for a nodup field list:
an attribute survives exactly when it is named in the list, present, and
truthy. -/
theorem selectFields_mem (attrs0 : List (String × JVal))
    (flist : List String) (hnd : flist.Nodup) (k : String) (v : JVal) :
    ((k, v) ∈ selectFields attrs0 flist) ↔
      (k ∈ flist ∧ objGet attrs0 k = some v ∧ v.truthy = true) := by
  rw [selectFields]
  rw [selectFields_go_mem attrs0 flist [] hnd (by simp) k v]
  simp

theorem assocSet_forall_keys {α : Type} (l : List (String × α)) (k : String)
    (v : α) (P : String → Prop) (hl : ∀ e ∈ l, P e.1) (hk : P k) :
    ∀ e ∈ assocSet l k v, P e.1 := by
  intro e he
  rw [assocSet] at he
  split at he
  · rcases List.mem_map.mp he with ⟨e0, he0, heq⟩
    by_cases hc : e0.1 = k
    · simp only [hc, if_true] at heq
      rw [← heq]
      exact hk
    · simp only [hc, if_false] at heq
      rw [← heq]
      exact hl e0 he0
  · rcases List.mem_append.mp he with h1 | h2
    · exact hl e h1
    · simp only [List.mem_singleton] at h2
      subst h2
      exact hk

theorem foldProcess_none (schema : ModelSchema) (pl : String → String)
    (ft : Option (List String)) (paths : List String) :
    paths.foldl (fun acc path => acc.bind
      (fun st => processRefPath schema pl ft st path)) none = none := by
  induction paths with
  | nil => rfl
  | cons p ps ih => simpa using ih

/-- Every relationship key produced by the refPath fold under a field list
is a member of that field list: the loop skips paths outside the list and
only ever inserts the current path as a key. -/
theorem fold_rels_keys (schema : ModelSchema) (pl : String → String)
    (flist : List String) (paths : List String) :
    ∀ (attrs : List (String × JVal)) (rels : List (String × LinkageVal))
      (out : List (String × JVal) × List (String × LinkageVal)),
      (∀ e ∈ rels, e.1 ∈ flist) →
      paths.foldl (fun acc path => acc.bind
        (fun st => processRefPath schema pl (some flist) st path))
        (some (attrs, rels)) = some out →
      ∀ e ∈ out.2, e.1 ∈ flist := by
  induction paths with
  | nil =>
    intro attrs rels out hrels hfold
    simp only [List.foldl_nil, Option.some.injEq] at hfold
    subst hfold
    exact hrels
  | cons p ps ih =>
    intro attrs rels out hrels hfold
    rw [List.foldl_cons, Option.some_bind] at hfold
    by_cases hskip : flist.contains p = true
    · rw [processRefPath] at hfold
      simp only [hskip, Bool.not_true, Bool.false_eq_true, if_false] at hfold
      cases hnav : navigate (.jobj attrs) (jsSplit '.' p) with
      | none =>
        rw [hnav] at hfold
        rw [foldProcess_none] at hfold
        exact absurd hfold (by simp)
      | some jsonVal =>
        rw [hnav] at hfold
        dsimp only at hfold
        refine ih _ _ out ?_ hfold
        refine assocSet_forall_keys rels p _ (fun s => s ∈ flist) hrels ?_
        simpa using hskip
    · rw [processRefPath] at hfold
      simp only [hskip] at hfold
      exact ih attrs rels out hrels (by simpa using hfold)

/-- Example schema with no reference paths, for the field-selection claim. -/
def exSchemaC7 : ModelSchema := ⟨"__v", "__t", [], [], []⟩

/-- Example document with an attribute whose value is the (falsy) number
zero. -/
def exDocC7 : MDoc := ⟨"Post", "p1", [("count", .jnum 0)]⟩

/-- Example document for the C7 witness. -/
def exDocC7w : MDoc :=
  ⟨"Post", "p1", [("a", .jstr "x"), ("b", .jstr "y")]⟩

/-- Claim C7, counterexample: the document has attribute "count" (value 0)
and the field set supplied for its type "posts" names exactly "count", yet
the produced Resource has NO attributes: the selection keeps a field only
when its value is truthy (`if (attrs[field])`), so a present attribute
named in the set is dropped because its value is falsy, where the claim
demands the attributes be exactly those named in the set and present. -/
theorem C7_counterexample_falsy_attribute :
    objGet (cleanAttrs exDocC7 exSchemaC7) "count" = some (.jnum 0)
    ∧ docToResource exDocC7 exSchemaC7 pluralS (some [("posts", ["count"])])
        = some ⟨"posts", "p1", [], []⟩ := ⟨rfl, rfl⟩

/-- Claim C7, amended: when a field set is supplied for the document's type
(1) over a schema with no reference paths, the produced attributes are
exactly the document's cleaned attributes that are named in the (nodup)
set, present, AND truthy — names in the set missing from the document are
silently omitted, never an error, and present-but-falsy values are dropped
as well; (2) every relationship entry's path is named in the set, so a
declared relationship path not named in the set is omitted from
relationships. -/
theorem C7_field_selection :
    (∀ (doc : MDoc) (schema : ModelSchema) (pl : String → String)
        (fobj : List (String × List String)) (flist : List String)
        (res : Resource),
      schema.refPaths = [] →
      assocGet fobj (getType doc.modelName pl) = some flist →
      flist.Nodup →
      docToResource doc schema pl (some fobj) = some res →
      ∀ k v, ((k, v) ∈ res.attrs ↔
        (k ∈ flist ∧ objGet (cleanAttrs doc schema) k = some v
          ∧ v.truthy = true)))
    ∧ (∀ (doc : MDoc) (schema : ModelSchema) (pl : String → String)
        (fobj : List (String × List String)) (flist : List String)
        (res : Resource),
      assocGet fobj (getType doc.modelName pl) = some flist →
      docToResource doc schema pl (some fobj) = some res →
      ∀ e ∈ res.relationships, e.1 ∈ flist) := by
  constructor
  · intro doc schema pl fobj flist res hrefs hfl hnd hres k v
    unfold docToResource at hres
    rw [hrefs] at hres
    simp only [hfl, List.foldl_nil, Option.map_some', Option.some.injEq]
      at hres
    subst hres
    exact selectFields_mem (cleanAttrs doc schema) flist hnd k v
  · intro doc schema pl fobj flist res hfl hres e he
    unfold docToResource at hres
    simp only [hfl] at hres
    cases hfold : schema.refPaths.foldl
        (fun acc path => acc.bind
          (fun st => processRefPath schema pl (some flist) st path))
        (some (selectFields (cleanAttrs doc schema) flist, [])) with
    | none =>
      rw [hfold] at hres
      exact absurd hres (by simp)
    | some st =>
      rw [hfold] at hres
      simp only [Option.map_some', Option.some.injEq] at hres
      subst hres
      exact fold_rels_keys schema pl flist schema.refPaths _ [] st
        (by simp) hfold e he

/-- Witness for C7 at a concrete document and field set. -/
theorem C7_field_selection_witness :
    ∃ res, docToResource exDocC7w exSchemaC7 pluralS (some [("posts", ["a"])])
        = some res
      ∧ (("a", JVal.jstr "x") ∈ res.attrs ↔
          ("a" ∈ ["a"] ∧ objGet (cleanAttrs exDocC7w exSchemaC7) "a"
              = some (.jstr "x")
            ∧ (JVal.jstr "x").truthy = true))
      ∧ (∀ e ∈ res.relationships, e.1 ∈ ["a"]) := by
  refine ⟨⟨"posts", "p1", [("a", .jstr "x")], []⟩, rfl, ?_, ?_⟩
  · exact C7_field_selection.1 exDocC7w exSchemaC7 pluralS
      [("posts", ["a"])] ["a"] ⟨"posts", "p1", [("a", .jstr "x")], []⟩
      rfl rfl (by decide) rfl "a" (.jstr "x")
  · exact C7_field_selection.2 exDocC7w exSchemaC7 pluralS
      [("posts", ["a"])] ["a"] ⟨"posts", "p1", [("a", .jstr "x")], []⟩
      rfl rfl

/-- The documents a store query resolves to, per the store contract of the
spec: `findOne` resolves to a document or to null/undefined (`noDoc`);
`find` resolves to an array (`manyDocs`), never null. -/
inductive DocsInput where
  | noDoc : DocsInput
  | oneDoc : MDoc → DocsInput
  | manyDocs : List MDoc → DocsInput
deriving Repr

/-- A single resource or a collection (ordered list of resources). -/
inductive RorC where
  | resource : Resource → RorC
  | collection : List Resource → RorC
deriving Repr

/-- Outcome of an adapter operation: success, a thrown `APIError`, or a
JavaScript TypeError crash (kept distinct from APIErrors). -/
inductive MResult (α : Type) where
  | ok : α → MResult α
  | apiError : APIError → MResult α
  | crash : MResult α
deriving Repr

/-- The 404 thrown by `docsToResourceOrCollection` and by `delete`. -/
def errNoMatch : APIError := ⟨404, "No matching resource found.", none⟩

/-- Embedding of `MongooseAdapter.docsToResourceOrCollection`: a null/
undefined result 404s; an empty array 404s only when a single resource was
wanted; otherwise the docs are coerced to an array, mapped through
`docToResource` (`crash` when that throws) and wrapped as a Collection or
unwrapped to the first resource. -/
def docsToResourceOrCollection (docs : DocsInput) (makeCollection : Bool)
    (schema : ModelSchema) (pl : String → String)
    (fields : Option (List (String × List String))) : MResult RorC :=
  match docs, makeCollection with
  | .noDoc, _ => .apiError errNoMatch
  | .manyDocs [], false => .apiError errNoMatch
  | .manyDocs [], true => .ok (.collection [])
  | .oneDoc d, mc =>
    match docToResource d schema pl fields with
    | none => .crash
    | some r => if mc then .ok (.collection [r]) else .ok (.resource r)
  | .manyDocs (d :: rest), mc =>
    match (d :: rest).mapM (fun x => docToResource x schema pl fields) with
    | none => .crash
    | some [] => .crash
    | some (r :: rs) =>
      if mc then .ok (.collection (r :: rs)) else .ok (.resource r)

/-- The `makeCollection` computation of `find` (line 187):
`!idOrIds || Array.isArray(idOrIds)` — true unless the filter is a single
truthy (non-empty) string. -/
def makeCollection : IdOrIds → Bool
  | .undef => true
  | .many _ => true
  | .one s => s == ""

/-- The result-shape slice of `find`: the primary documents resolved by the
store are mapped through `docsToResourceOrCollection` with the
`makeCollection` flag computed from the id filter. -/
def findResultShape (idOrIds : IdOrIds) (docs : DocsInput)
    (schema : ModelSchema) (pl : String → String)
    (fields : Option (List (String × List String))) : MResult RorC :=
  docsToResourceOrCollection docs (makeCollection idOrIds) schema pl fields

/-- Schema used by the C3 examples. -/
def exSchemaC3 : ModelSchema := ⟨"__v", "__t", [], [], []⟩

/-- Claim C3, counterexample: for the single non-array id filter `""` (an
empty string is falsy) `makeCollection` is true, so a Find for it that
matches zero documents returns an empty Collection with no error, where the
claim says a single non-array id makes `makeCollection` false and zero
documents a 404. -/
theorem C3_counterexample_empty_single_id :
    makeCollection (.one "") = true
    ∧ findResultShape (.one "") (.manyDocs []) exSchemaC3 pluralS none
        = .ok (.collection []) := ⟨rfl, rfl⟩

/-- Claim C3, amended: `makeCollection` is false exactly for a single
NON-EMPTY id (the empty string counts as no filter); with
`makeCollection = false` and zero documents (a findOne miss or an empty
array) the operation fails with the 404 error; with `makeCollection = true`
and an empty array it returns an empty Collection and never an error; and
a successful result is a Collection exactly when `makeCollection` is
true. -/
theorem C3_result_shape :
    (∀ idOrIds, makeCollection idOrIds = false ↔
      ∃ s, idOrIds = .one s ∧ s ≠ "")
    ∧ (∀ (s : String) (schema : ModelSchema) (pl : String → String) fields,
        s ≠ "" →
        findResultShape (.one s) .noDoc schema pl fields
            = .apiError errNoMatch
        ∧ findResultShape (.one s) (.manyDocs []) schema pl fields
            = .apiError errNoMatch)
    ∧ (∀ idOrIds (schema : ModelSchema) (pl : String → String) fields,
        makeCollection idOrIds = true →
        findResultShape idOrIds (.manyDocs []) schema pl fields
          = .ok (.collection []))
    ∧ (∀ idOrIds docs (schema : ModelSchema) (pl : String → String) fields r,
        findResultShape idOrIds docs schema pl fields = .ok r →
        ((∃ rs, r = .collection rs) ↔ makeCollection idOrIds = true)) := by
  refine ⟨?_, ?_, ?_, ?_⟩
  · intro idOrIds
    cases idOrIds with
    | undef => simp [makeCollection]
    | many ids => simp [makeCollection]
    | one s =>
      simp only [makeCollection, beq_eq_false_iff_ne, ne_eq]
      constructor
      · intro h
        exact ⟨s, rfl, h⟩
      · rintro ⟨s2, heq, hne⟩
        injection heq with heq2
        subst heq2
        exact hne
  · intro s schema pl fields hs
    have hmc : makeCollection (.one s) = false := by
      simp [makeCollection, hs]
    constructor
    · rfl
    · rw [findResultShape, hmc]
      rfl
  · intro idOrIds schema pl fields hmc
    rw [findResultShape, hmc]
    rfl
  · intro idOrIds docs schema pl fields r hok
    cases docs with
    | noDoc => exact absurd hok (by simp [findResultShape,
        docsToResourceOrCollection])
    | oneDoc d =>
      rw [findResultShape, docsToResourceOrCollection] at hok
      cases hd : docToResource d schema pl fields with
      | none => rw [hd] at hok; exact absurd hok (by simp)
      | some r0 =>
        rw [hd] at hok
        cases hmc : makeCollection idOrIds with
        | true =>
          rw [hmc] at hok
          simp only [if_true, MResult.ok.injEq] at hok
          subst hok
          simp
        | false =>
          rw [hmc] at hok
          simp only [Bool.false_eq_true, if_false, MResult.ok.injEq] at hok
          subst hok
          simp
    | manyDocs ds =>
      cases ds with
      | nil =>
        cases hmc : makeCollection idOrIds with
        | true =>
          rw [findResultShape, hmc] at hok
          simp only [docsToResourceOrCollection, MResult.ok.injEq] at hok
          subst hok
          simp [hmc]
        | false =>
          rw [findResultShape, hmc] at hok
          exact absurd hok (by simp [docsToResourceOrCollection])
      | cons d rest =>
        rw [findResultShape, docsToResourceOrCollection] at hok
        cases hm : (d :: rest).mapM
            (fun x => docToResource x schema pl fields) with
        | none => rw [hm] at hok; exact absurd hok (by simp)
        | some rs0 =>
          rw [hm] at hok
          cases rs0 with
          | nil => exact absurd hok (by simp)
          | cons r0 rs =>
            cases hmc : makeCollection idOrIds with
            | true =>
              rw [hmc] at hok
              simp only [if_true, MResult.ok.injEq] at hok
              subst hok
              simp
            | false =>
              rw [hmc] at hok
              simp only [Bool.false_eq_true, if_false,
                MResult.ok.injEq] at hok
              subst hok
              simp

/-- Witness for C3 at concrete inputs: a non-empty single id with a findOne
miss 404s, and an ok empty Collection arises exactly under
`makeCollection = true`. -/
theorem C3_result_shape_witness :
    findResultShape (.one "aaaaaaaaaaaaaaaaaaaaaaaa") .noDoc exSchemaC3
        pluralS none = .apiError errNoMatch
    ∧ ((∃ rs, RorC.collection ([] : List Resource) = RorC.collection rs)
        ↔ makeCollection (.many []) = true) :=
  ⟨(C3_result_shape.2.1 "aaaaaaaaaaaaaaaaaaaaaaaa" exSchemaC3 pluralS none
      (by decide)).1,
   C3_result_shape.2.2.2 (.many []) (.manyDocs []) exSchemaC3 pluralS none
      (.collection []) rfl⟩

/-- Execution of an id query against a database of documents.  Modelled
from the spec's store contract (the store itself lives outside this
repository): `findOne` resolves to the first matching document or null;
`find` resolves to the array of matching documents, never null. -/
def execIdQuery (q : IdQueryMode) (db : List MDoc) : DocsInput :=
  match q with
  | .findOneById i =>
    match db.find? (fun d => d.docId = i) with
    | some d => .oneDoc d
    | none => .noDoc
  | .findByIds ids => .manyDocs (db.filter (fun d => ids.contains d.docId))
  | .findAll => .manyDocs db

/-- JavaScript falsiness of the id filter (`!idOrIds`): undefined and the
empty string are falsy; every array, including the empty one, is truthy. -/
def idOrIdsFalsy : IdOrIds → Bool
  | .undef => true
  | .one s => s == ""
  | .many _ => false

/-- The 400 error of `delete` when no target ids are given. -/
def errDeleteNoIds : APIError :=
  ⟨400, "You must specify some resources to delete", none⟩

/-- Embedding of `MongooseAdapter.delete`: `getIdQueryType` runs first and
may throw; then a falsy id filter rejects with the 400 error before the
store query is built or executed (the result does not depend on the
database in that case); then the query runs, a null result (findOne miss)
404s, and otherwise every matched document is removed (`it.remove()`) and
the matched documents are returned.  The result pairs the returned
documents (coerced to a list) with the database after removal. -/
def deleteOp (idOrIds : IdOrIds) (db : List MDoc) :
    MResult (List MDoc × List MDoc) :=
  match getIdQueryType idOrIds with
  | .error e => .apiError e
  | .ok q =>
    if idOrIdsFalsy idOrIds then
      .apiError errDeleteNoIds
    else
      match execIdQuery q db with
      | .noDoc => .apiError errNoMatch
      | .oneDoc d => .ok ([d], db.filter (fun x => !(x.docId == d.docId)))
      | .manyDocs ds =>
        .ok (ds, db.filter (fun x => !(ds.any (fun d => d.docId == x.docId))))

/-- Claim C5, counterexample: a Delete whose id query (a valid-format
multi-id filter) matches no documents does NOT fail with a 404 — the store
returns an empty array, which is truthy, so the `!docs` check passes and an
empty result is returned with no error.  The claim says a query matching no
documents fails with a 404 APIError. -/
theorem C5_counterexample_multi_id_no_match :
    deleteOp (.many ["aaaaaaaaaaaaaaaaaaaaaaaa"]) [] = .ok ([], [])
    ∧ (MResult.ok (([], []) : List MDoc × List MDoc)
        ≠ .apiError errNoMatch) := by
  refine ⟨rfl, ?_⟩
  intro h
  exact MResult.noConfusion h

/-- Claim C5, amended: a Delete with a falsy id filter (undefined or the
empty string) rejects with the 400 error for every database state — no
store query is consulted; a single-id Delete whose document is absent fails
with the 404 error; a single-id Delete whose document is present removes
exactly it and returns it; a multi-id Delete removes and returns exactly
the matched documents, and when nothing matches it returns an empty list
with no error (the 404 arises only from the findOne null, never from an
empty find array). -/
theorem C5_delete_behavior :
    (∀ (idOrIds : IdOrIds) (db : List MDoc), idOrIdsFalsy idOrIds = true →
      deleteOp idOrIds db = .apiError errDeleteNoIds)
    ∧ (∀ (s : String) (db : List MDoc), idIsValid s = true →
        db.find? (fun d => d.docId = s) = none →
        deleteOp (.one s) db = .apiError errNoMatch)
    ∧ (∀ (s : String) (db : List MDoc) (d : MDoc), idIsValid s = true →
        db.find? (fun d2 => d2.docId = s) = some d →
        deleteOp (.one s) db
          = .ok ([d], db.filter (fun x => !(x.docId == d.docId))))
    ∧ (∀ (ids : List String) (db : List MDoc), ids.all idIsValid = true →
        deleteOp (.many ids) db
          = .ok (db.filter (fun d => ids.contains d.docId),
              db.filter (fun x =>
                !((db.filter (fun d => ids.contains d.docId)).any
                  (fun d => d.docId == x.docId))))) := by
  have hvalid_ne : ∀ s : String, idIsValid s = true → s ≠ "" := by
    intro s hv hc
    subst hc
    simp [idIsValid] at hv
  refine ⟨?_, ?_, ?_, ?_⟩
  · intro idOrIds db hfalsy
    cases idOrIds with
    | undef => rfl
    | many ids => simp [idOrIdsFalsy] at hfalsy
    | one s =>
      have hs : s = "" := by simpa [idOrIdsFalsy] using hfalsy
      subst hs
      rfl
  · intro s db hv hfind
    have hne : s ≠ "" := hvalid_ne s hv
    have hq : getIdQueryType (.one s) = .ok (.findOneById s) := by
      simp [getIdQueryType, hne, hv]
    rw [deleteOp, hq]
    have hfalsy : idOrIdsFalsy (.one s) = false := by
      simp [idOrIdsFalsy, hne]
    rw [hfalsy]
    simp only [Bool.false_eq_true, if_false, execIdQuery, hfind]
  · intro s db d hv hfind
    have hne : s ≠ "" := hvalid_ne s hv
    have hq : getIdQueryType (.one s) = .ok (.findOneById s) := by
      simp [getIdQueryType, hne, hv]
    rw [deleteOp, hq]
    have hfalsy : idOrIdsFalsy (.one s) = false := by
      simp [idOrIdsFalsy, hne]
    rw [hfalsy]
    simp only [Bool.false_eq_true, if_false, execIdQuery, hfind]
  · intro ids db hv
    have hq : getIdQueryType (.many ids) = .ok (.findByIds ids) := by
      simp [getIdQueryType, hv]
    rw [deleteOp, hq]
    rfl

/-- Witness for C5 at concrete inputs: an undefined id filter 400s, and a
valid single id absent from the store 404s. -/
theorem C5_delete_behavior_witness :
    deleteOp .undef [] = .apiError errDeleteNoIds
    ∧ deleteOp (.one "aaaaaaaaaaaaaaaaaaaaaaaa") [] = .apiError errNoMatch :=
  ⟨C5_delete_behavior.1 .undef [] rfl,
   C5_delete_behavior.2.1 "aaaaaaaaaaaaaaaaaaaaaaaa" [] (by decide) rfl⟩

/-- The 400 error thrown (with its templated detail) for an include path
whose first segment is not a declared relationship of the type. -/
def errInvalidIncludePath (type head : String) : APIError :=
  ⟨400, "Invalid include path.",
    some ("Resources of type \"" ++ type ++ "\" don\x27t have a(n) \""
      ++ head ++ "\" relationship.")⟩

/-- The 501 error thrown for a nested include path. -/
def errMultiLevelInclude : APIError :=
  ⟨501, "Multi-level include paths aren\x27t yet supported.", none⟩

/-- Embedding of the include-path loop of `find` (lines 128-147): each
supplied path is split on dots; a first segment that is not among the
declared reference paths throws the 400 error; otherwise a multi-segment
path throws the 501 error; otherwise the first segment is pushed onto the
populated paths. -/
def processIncludePaths (type : String) (refPaths : List String)
    (includePaths : List String) : Except APIError (List String) :=
  includePaths.foldlM (fun populated p =>
    let pathParts := jsSplit '.' p
    let head := pathParts.headD ""
    if !(refPaths.contains head) then
      .error (errInvalidIncludePath type head)
    else if pathParts.length > 1 then
      .error errMultiLevelInclude
    else
      .ok (populated ++ [head])) []

/-- Validity of one include path: declared first segment and one level. -/
def includePathOk (refPaths : List String) (p : String) : Bool :=
  refPaths.contains ((jsSplit '.' p).headD "")
    && ((jsSplit '.' p).length == 1)

theorem jsSplitChars_ne_nil (sep : Char) (l : List Char) :
    jsSplitChars sep l ≠ [] := by
  cases l with
  | nil => simp [jsSplitChars]
  | cons c rest =>
    rw [jsSplitChars]
    by_cases h : c = sep
    · simp [h]
    · simp only [h, if_false]
      cases jsSplitChars sep rest with
      | nil => simp
      | cons w ws => simp

theorem jsSplitChars_eq_singleton (sep : Char) (l w : List Char)
    (h : jsSplitChars sep l = [w]) : w = l := by
  induction l generalizing w with
  | nil =>
    rw [jsSplitChars] at h
    injection h with h1
    exact h1.symm
  | cons c rest ih =>
    rw [jsSplitChars] at h
    by_cases hc : c = sep
    · simp only [hc, if_true] at h
      injection h with h1 h2
      exact absurd h2 (jsSplitChars_ne_nil sep rest)
    · simp only [hc, if_false] at h
      cases hr : jsSplitChars sep rest with
      | nil => exact absurd hr (jsSplitChars_ne_nil sep rest)
      | cons w0 ws =>
        rw [hr] at h
        injection h with h1 h2
        subst h2
        have := ih w0 hr
        subst this
        rw [← h1]

theorem jsSplit_singleton_head (p : String)
    (h : (jsSplit '.' p).length = 1) : (jsSplit '.' p).headD "" = p := by
  rw [jsSplit] at h ⊢
  rw [List.length_map] at h
  cases hs : jsSplitChars '.' p.data with
  | nil => exact absurd hs (jsSplitChars_ne_nil '.' p.data)
  | cons w ws =>
    rw [hs] at h
    simp only [List.length_cons] at h
    have hws : ws = [] := by
      cases ws with
      | nil => rfl
      | cons a b => simp at h
    subst hws
    have hw : w = p.data := jsSplitChars_eq_singleton '.' p.data w hs
    subst hw
    simp only [hs, List.map_cons, List.headD_cons]

/-- Short name for the fold step of `processIncludePaths`. -/
def includeStep (type : String) (refPaths : List String)
    (populated : List String) (p : String) : Except APIError (List String) :=
  let pathParts := jsSplit '.' p
  let head := pathParts.headD ""
  if !(refPaths.contains head) then
    .error (errInvalidIncludePath type head)
  else if pathParts.length > 1 then
    .error errMultiLevelInclude
  else
    .ok (populated ++ [head])

theorem processIncludePaths_eq_fold (type : String)
    (refPaths paths : List String) :
    processIncludePaths type refPaths paths
      = paths.foldlM (includeStep type refPaths) [] := rfl

theorem includeStep_ok_of_valid (type : String) (refPaths : List String)
    (populated : List String) (p : String)
    (h : includePathOk refPaths p = true) :
    includeStep type refPaths populated p
      = .ok (populated ++ [(jsSplit '.' p).headD ""]) := by
  rw [includePathOk, Bool.and_eq_true] at h
  rw [includeStep]
  simp only [h.1, Bool.not_true, Bool.false_eq_true, if_false]
  have hlen : ¬ ((jsSplit '.' p).length > 1) := by
    have := h.2
    simp only [beq_iff_eq] at this
    omega
  rw [if_neg hlen]

theorem includeStep_error_of_invalid (type : String) (refPaths : List String)
    (populated : List String) (p : String)
    (h : includePathOk refPaths p = false) :
    includeStep type refPaths populated p
      = .error (if refPaths.contains ((jsSplit '.' p).headD "")
          then errMultiLevelInclude
          else errInvalidIncludePath type ((jsSplit '.' p).headD "")) := by
  rw [includePathOk, Bool.and_eq_false_iff] at h
  simp only [includeStep]
  rcases h with h | h
  · simp only [h, Bool.not_false, if_true, Bool.false_eq_true, if_false]
  · have hpos : (jsSplit '.' p).length > 1 := by
      have hlen : (jsSplit '.' p).length ≠ 1 := by simpa using h
      have hne : jsSplit '.' p ≠ [] := by
        rw [jsSplit]
        intro hc
        exact jsSplitChars_ne_nil '.' p.data (by simpa using hc)
      have := List.length_pos.mpr hne
      omega
    cases hcont : refPaths.contains ((jsSplit '.' p).headD "") with
    | true =>
      simp only [hcont, Bool.not_true, Bool.false_eq_true, if_false, if_true]
      rw [if_pos hpos]
    | false =>
      simp only [hcont, Bool.not_false, if_true, Bool.false_eq_true, if_false]

theorem includeFold_ok_of_all_valid (type : String) (refPaths : List String)
    (paths : List String) :
    ∀ acc, (∀ p ∈ paths, includePathOk refPaths p = true) →
      paths.foldlM (includeStep type refPaths) acc
        = .ok (acc ++ paths.map (fun p => (jsSplit '.' p).headD "")) := by
  induction paths with
  | nil =>
    intro acc _
    simp only [List.foldlM_nil, List.map_nil, List.append_nil]
    rfl
  | cons p ps ih =>
    intro acc hall
    rw [List.foldlM_cons,
      includeStep_ok_of_valid type refPaths acc p (hall p (by simp))]
    have hbind : ((Except.ok (acc ++ [(jsSplit '.' p).headD ""]) :
          Except APIError (List String)) >>= fun acc2 =>
            ps.foldlM (includeStep type refPaths) acc2)
        = ps.foldlM (includeStep type refPaths)
            (acc ++ [(jsSplit '.' p).headD ""]) := rfl
    rw [hbind, ih (acc ++ [(jsSplit '.' p).headD ""])
      (fun q hq => hall q (by simp [hq]))]
    simp [List.append_assoc]

theorem includeFold_error_of_find (type : String) (refPaths : List String)
    (paths : List String) :
    ∀ acc p, paths.find? (fun q => !(includePathOk refPaths q)) = some p →
      paths.foldlM (includeStep type refPaths) acc
        = .error (if refPaths.contains ((jsSplit '.' p).headD "")
            then errMultiLevelInclude
            else errInvalidIncludePath type ((jsSplit '.' p).headD "")) := by
  induction paths with
  | nil => intro acc p h; simp at h
  | cons q qs ih =>
    intro acc p h
    rw [List.find?_cons] at h
    cases hq : includePathOk refPaths q with
    | true =>
      rw [hq] at h
      simp only [Bool.not_true] at h
      rw [List.foldlM_cons,
        includeStep_ok_of_valid type refPaths acc q hq]
      have hbind : ((Except.ok (acc ++ [(jsSplit '.' q).headD ""]) :
            Except APIError (List String)) >>= fun acc2 =>
              qs.foldlM (includeStep type refPaths) acc2)
          = qs.foldlM (includeStep type refPaths)
              (acc ++ [(jsSplit '.' q).headD ""]) := rfl
      rw [hbind]
      exact ih (acc ++ [(jsSplit '.' q).headD ""]) p h
    | false =>
      rw [hq] at h
      simp only [Bool.not_false] at h
      injection h with h1
      subst h1
      rw [List.foldlM_cons,
        includeStep_error_of_invalid type refPaths acc q hq]
      rfl

/-- Claim C6, counterexample: the multi-segment include path
"something.nested", whose first segment is not a declared relationship,
causes the 400 "Invalid include path." error, not the 501 — the unknown-
name check runs before the multi-level check, so "a multi-segment path
causes a 501 APIError" does not hold universally. -/
theorem C6_counterexample_nested_unknown :
    (jsSplit '.' "something.nested").length > 1
    ∧ processIncludePaths "posts" ["author"] ["something.nested"]
        = .error (errInvalidIncludePath "posts" "something")
    ∧ (errInvalidIncludePath "posts" "something").status = 400
    ∧ errMultiLevelInclude.status = 501
    ∧ errInvalidIncludePath "posts" "something" ≠ errMultiLevelInclude := by
  refine ⟨by decide, rfl, rfl, rfl, ?_⟩
  intro h
  have h2 := congrArg APIError.status h
  exact absurd h2 (by decide)

/-- Claim C6, amended: the include-path loop succeeds, populating exactly
the (first segments of the) supplied paths, if and only if every path has a
declared first segment and a single level; on the first invalid path (in
order) it throws the 501 "multi-level" error when that path's first segment
is declared (a nested path under a valid relationship), and the 400
"Invalid include path." error otherwise — the unknown-name check precedes
the multi-level check; and a one-level path's first segment is the path
itself. -/
theorem C6_include_path_validation :
    (∀ (type : String) (refPaths paths : List String) out,
      processIncludePaths type refPaths paths = .ok out ↔
        ((∀ p ∈ paths, includePathOk refPaths p = true)
          ∧ out = paths.map (fun p => (jsSplit '.' p).headD "")))
    ∧ (∀ (type : String) (refPaths paths : List String) (p : String),
        paths.find? (fun q => !(includePathOk refPaths q)) = some p →
        processIncludePaths type refPaths paths
          = .error (if refPaths.contains ((jsSplit '.' p).headD "")
              then errMultiLevelInclude
              else errInvalidIncludePath type ((jsSplit '.' p).headD "")))
    ∧ (∀ p : String, (jsSplit '.' p).length = 1 →
        (jsSplit '.' p).headD "" = p) := by
  refine ⟨?_, ?_, jsSplit_singleton_head⟩
  · intro type refPaths paths out
    constructor
    · intro hok
      cases hf : paths.find? (fun q => !(includePathOk refPaths q)) with
      | none =>
        have hall : ∀ p ∈ paths, includePathOk refPaths p = true := by
          intro p hp
          have := List.find?_eq_none.mp hf p hp
          simpa using this
        refine ⟨hall, ?_⟩
        rw [processIncludePaths_eq_fold,
          includeFold_ok_of_all_valid type refPaths paths [] hall] at hok
        injection hok with h1
        simpa using h1.symm
      | some p =>
        rw [processIncludePaths_eq_fold,
          includeFold_error_of_find type refPaths paths [] p hf] at hok
        exact absurd hok (by simp)
    · rintro ⟨hall, rfl⟩
      rw [processIncludePaths_eq_fold,
        includeFold_ok_of_all_valid type refPaths paths [] hall]
      simp
  · intro type refPaths paths p hf
    rw [processIncludePaths_eq_fold]
    exact includeFold_error_of_find type refPaths paths [] p hf

/-- Witness for C6 at concrete inputs: a valid one-level path is populated,
and a nested path under a declared relationship 501s. -/
theorem C6_include_path_validation_witness :
    processIncludePaths "posts" ["author"] ["author"] = .ok ["author"]
    ∧ processIncludePaths "posts" ["author"] ["author.friends"]
        = .error errMultiLevelInclude := by
  constructor
  · exact (C6_include_path_validation.1 "posts" ["author"] ["author"]
      ["author"]).mpr ⟨by decide, by decide⟩
  · have := C6_include_path_validation.2.1 "posts" ["author"]
      ["author.friends"] "author.friends" (by decide)
    simpa using this

/-- Modelled from the spec: the store's document construction used by
`update` (`Model.hydrate` and `Document.set`, `modifiedPaths`, `toObject`),
which lives in the mongoose driver outside this repository.  A constructed
document carries its attribute values and the list of paths marked
modified. -/
structure HydDoc where
  values : List (String × JVal)
  modified : List String
deriving Repr

/-- Modelled from the spec: `Model.hydrate` on an empty object applies the
schema defaults without marking any path modified. -/
def hydrateEmpty (defaults : List (String × JVal)) : HydDoc :=
  ⟨defaults, []⟩

/-- Modelled from the spec: `Document.set` stores each supplied path's
value and marks exactly the supplied paths as modified (each once). -/
def HydDoc.set (doc : HydDoc) (changeSet : List (String × JVal)) : HydDoc :=
  changeSet.foldl (fun acc kv =>
    ⟨objSet acc.values kv.1 kv.2,
     if acc.modified.contains kv.1 then acc.modified
     else acc.modified ++ [kv.1]⟩) doc

/-- Embedding of the final-update computation of `update` (lines 269-283):
run the change set through the document constructor, then keep only the
paths the document reports as modified, reading their values back from the
constructed document. -/
def finalUpdateFor (defaults changeSet : List (String × JVal)) :
    List (String × JVal) :=
  let updateDoc := (hydrateEmpty defaults).set changeSet
  let modifiedPaths := updateDoc.modified
  let updateDocObject := updateDoc.values
  modifiedPaths.foldl (fun acc key =>
    objSet acc key ((objGet updateDocObject key).getD .jundefined)) []

theorem objSet_keys_mem (l : List (String × JVal)) (k : String) (v : JVal)
    (k2 : String) :
    (k2 ∈ (objSet l k v).map Prod.fst) ↔ (k2 ∈ l.map Prod.fst ∨ k2 = k) := by
  rw [objSet]
  cases hh : objHas l k with
  | true =>
    simp only [if_true]
    have hkeys : (l.map (fun kv => if kv.1 = k then (k, v) else kv)).map
        Prod.fst = l.map Prod.fst := by
      rw [List.map_map]
      refine List.map_congr_left (fun e _ => ?_)
      by_cases he : e.1 = k
      · simp [he]
      · simp [he]
    rw [hkeys]
    constructor
    · exact Or.inl
    · rintro (h1 | rfl)
      · exact h1
      · rw [objHas] at hh
        rcases List.any_eq_true.mp hh with ⟨e, he, hek⟩
        simp only [decide_eq_true_eq] at hek
        exact List.mem_map.mpr ⟨e, he, hek⟩
  | false =>
    simp only [Bool.false_eq_true, if_false, List.map_append]
    simp

theorem fold_objSet_keys_mem (paths : List String)
    (obj : List (String × JVal)) :
    ∀ (acc : List (String × JVal)) (k : String),
      (k ∈ (paths.foldl (fun acc2 key =>
          objSet acc2 key ((objGet obj key).getD .jundefined)) acc).map Prod.fst)
        ↔ (k ∈ acc.map Prod.fst ∨ k ∈ paths) := by
  induction paths with
  | nil => intro acc k; simp
  | cons p ps ih =>
    intro acc k
    rw [List.foldl_cons, ih]
    rw [objSet_keys_mem]
    constructor
    · rintro ((h1 | rfl) | h2)
      · exact Or.inl h1
      · exact Or.inr (by simp)
      · exact Or.inr (by simp [h2])
    · rintro (h1 | h2)
      · exact Or.inl (Or.inl h1)
      · rcases List.mem_cons.mp h2 with rfl | h3
        · exact Or.inl (Or.inr rfl)
        · exact Or.inr h3

theorem set_modified_mem (changeSet : List (String × JVal)) :
    ∀ (doc : HydDoc) (k : String),
      (k ∈ (doc.set changeSet).modified)
        ↔ (k ∈ doc.modified ∨ k ∈ changeSet.map Prod.fst) := by
  induction changeSet with
  | nil => intro doc k; simp [HydDoc.set]
  | cons kv rest ih =>
    intro doc k
    rw [HydDoc.set, List.foldl_cons]
    have hres := ih ⟨objSet doc.values kv.1 kv.2,
      if doc.modified.contains kv.1 then doc.modified
      else doc.modified ++ [kv.1]⟩ k
    rw [HydDoc.set] at hres
    rw [hres]
    cases hc : doc.modified.contains kv.1 with
    | true =>
      simp only [if_true]
      constructor
      · rintro (h1 | h2)
        · exact Or.inl h1
        · exact Or.inr (by simp [h2])
      · rintro (h1 | h2)
        · exact Or.inl h1
        · rw [List.map_cons] at h2
          rcases List.mem_cons.mp h2 with rfl | h3
          · exact Or.inl (by simpa using hc)
          · exact Or.inr h3
    | false =>
      simp only [Bool.false_eq_true, if_false]
      constructor
      · rintro (h1 | h2)
        · rcases List.mem_append.mp h1 with ha | hb
          · exact Or.inl ha
          · have hk : k = kv.1 := by simpa using hb
            exact Or.inr (by simp [List.map_cons, hk])
        · exact Or.inr (by simp [h2])
      · rintro (h1 | h2)
        · exact Or.inl (List.mem_append.mpr (Or.inl h1))
        · rw [List.map_cons] at h2
          rcases List.mem_cons.mp h2 with rfl | h3
          · exact Or.inl (List.mem_append.mpr (Or.inr (by simp)))
          · exact Or.inr h3

/-- Claim C4: the final update applied to the store has exactly the paths
the constructed document reports as modified (first conjunct); those are
exactly the paths supplied in the change set (second conjunct); therefore
every path appearing in the stored update — in particular any attribute
whose value equals a schema default — was explicitly present in the
supplied patch (third conjunct): schema defaults applied by construction
are never injected into the update. -/
theorem C4_update_only_modified_paths :
    (∀ (defaults changeSet : List (String × JVal)) (k : String),
      (k ∈ (finalUpdateFor defaults changeSet).map Prod.fst)
        ↔ (k ∈ ((hydrateEmpty defaults).set changeSet).modified))
    ∧ (∀ (defaults changeSet : List (String × JVal)) (k : String),
      (k ∈ ((hydrateEmpty defaults).set changeSet).modified)
        ↔ (k ∈ changeSet.map Prod.fst))
    ∧ (∀ (defaults changeSet : List (String × JVal)) (k : String)
        (v : JVal),
      (k, v) ∈ finalUpdateFor defaults changeSet →
      k ∈ changeSet.map Prod.fst) := by
  have h1 : ∀ (defaults changeSet : List (String × JVal)) (k : String),
      (k ∈ (finalUpdateFor defaults changeSet).map Prod.fst)
        ↔ (k ∈ ((hydrateEmpty defaults).set changeSet).modified) := by
    intro defaults changeSet k
    rw [finalUpdateFor]
    rw [fold_objSet_keys_mem]
    simp
  have h2 : ∀ (defaults changeSet : List (String × JVal)) (k : String),
      (k ∈ ((hydrateEmpty defaults).set changeSet).modified)
        ↔ (k ∈ changeSet.map Prod.fst) := by
    intro defaults changeSet k
    rw [set_modified_mem]
    simp [hydrateEmpty]
  refine ⟨h1, h2, ?_⟩
  intro defaults changeSet k v hmem
  have : k ∈ (finalUpdateFor defaults changeSet).map Prod.fst :=
    List.mem_map.mpr ⟨(k, v), hmem, rfl⟩
  exact (h2 defaults changeSet k).mp ((h1 defaults changeSet k).mp this)

/-- Witness for C4 at a concrete change set: a path in the final update was
present in the patch. -/
theorem C4_update_only_modified_paths_witness :
    "a" ∈ ([("a", JVal.jstr "x")] : List (String × JVal)).map Prod.fst :=
  C4_update_only_modified_paths.2.2 [] [("a", .jstr "x")] "a" (.jstr "x")
    (List.mem_singleton.mpr rfl)

/-- Concrete object for the C10 witness. -/
def objC10 : JVal := .jobj [("a", .jobj [("b", .jnum 1)])]

/-- Witness for C10 at a concrete path and object: a successful deletion
leaves the container without the final key. -/
theorem C10_deleteNested_witness :
    ∃ kvs, navigate (deleteNested "a.b" objC10).2
        (jsSplit '.' "a.b").dropLast = some (JVal.jobj kvs)
      ∧ objHas kvs ((jsSplit '.' "a.b").getLast?.getD "") = false :=
  (C10_deleteNested_total_and_exact "a.b" objC10).2.2 rfl

/-- Edge map of `pseudoTopSort`, as a JavaScript object literal: each
source node paired with the set of its children (keys unique, child sets
duplicate-free, both enforced by hypotheses where they matter). -/
abbrev Edges : Type := List (String × List String)

/-- JavaScript `edges[thisRoot] || \x7b\x7d`: the child list of a node, or
empty when the node has no entry. -/
def childrenOf (edges : Edges) (r : String) : List String :=
  ((List.find? (fun e => e.1 = r) edges).map Prod.snd).getD []

/-- Effect on the edge map of the inner `for..in` loop of `pseudoTopSort`,
which deletes every child key of the processed root: the root's child set
becomes empty. -/
def clearKey (edges : Edges) (r : String) : Edges :=
  List.map (fun e => if e.1 = r then (e.1, ([] : List String)) else e) edges

/-- Total number of edges remaining in the map. -/
def totalEdges (edges : Edges) : Nat :=
  (List.map (fun e => e.2.length) edges).sum

theorem totalEdges_clearKey_le (edges : Edges) (r : String) :
    totalEdges (clearKey edges r) ≤ totalEdges edges := by
  induction edges with
  | nil => exact Nat.le_refl 0
  | cons e rest ih =>
    by_cases h : e.1 = r
    · simp only [clearKey, totalEdges, List.map_cons, List.sum_cons, h,
        if_true, List.length_nil] at ih ⊢
      omega
    · simp only [clearKey, totalEdges, List.map_cons, List.sum_cons, h,
        if_false] at ih ⊢
      omega

theorem childrenOf_clearKey_le (edges : Edges) (r : String) :
    (childrenOf edges r).length + totalEdges (clearKey edges r)
      ≤ totalEdges edges := by
  induction edges with
  | nil => simp [childrenOf, clearKey, totalEdges]
  | cons e rest ih =>
    by_cases h : e.1 = r
    · have hch : childrenOf (e :: rest) r = e.2 := by
        simp [childrenOf, List.find?_cons, h]
      rw [hch]
      have hclr : clearKey (e :: rest) r = (e.1, []) :: clearKey rest r := by
        simp [clearKey, h]
      rw [hclr]
      simp only [totalEdges, List.map_cons, List.sum_cons, List.length_nil]
      have := totalEdges_clearKey_le rest r
      simp only [totalEdges] at this
      omega
    · have hch : childrenOf (e :: rest) r = childrenOf rest r := by
        simp [childrenOf, List.find?_cons, h]
      rw [hch]
      have hclr : clearKey (e :: rest) r = e :: clearKey rest r := by
        simp [clearKey, h]
      rw [hclr]
      simp only [totalEdges, List.map_cons, List.sum_cons] at ih ⊢
      omega

/-- Embedding of the `while(roots.length)` loop of `pseudoTopSort`
(Kahn's algorithm specialized to at most one incoming edge per node): shift
a root, append it to the result, delete each of its child edges, and push
each child as a new root. -/
def pseudoTopSortLoop : List String → Edges → List String → List String
  | [], _, sortResult => sortResult
  | thisRoot :: rest, edges, sortResult =>
    pseudoTopSortLoop (rest ++ childrenOf edges thisRoot)
      (clearKey edges thisRoot) (sortResult ++ [thisRoot])
termination_by roots edges _ => roots.length + totalEdges edges
decreasing_by
  have h := childrenOf_clearKey_le edges thisRoot
  simp only [List.length_append, List.length_cons]
  omega

/-- Embedding of `pseudoTopSort(nodes, edges, roots)`: the source
defensively copies its arguments (irrelevant here) and never reads `nodes`
after copying it; the loop starts from the given roots with an empty
result. -/
def pseudoTopSort (_nodes : List String) (edges : Edges)
    (roots : List String) : List String :=
  pseudoTopSortLoop roots edges []

theorem loop_nil (E : Edges) (acc : List String) :
    pseudoTopSortLoop [] E acc = acc := by
  simp only [pseudoTopSortLoop]

theorem loop_cons (r : String) (rest : List String) (E : Edges)
    (acc : List String) :
    pseudoTopSortLoop (r :: rest) E acc
      = pseudoTopSortLoop (rest ++ childrenOf E r) (clearKey E r)
          (acc ++ [r]) := by
  simp only [pseudoTopSortLoop]

theorem loop_prefix_fuel : ∀ (n : Nat) (q : List String) (E : Edges)
    (acc : List String), q.length + totalEdges E ≤ n →
    ∃ t, pseudoTopSortLoop q E acc = acc ++ t := by
  intro n
  induction n with
  | zero =>
    intro q E acc h
    cases q with
    | nil => exact ⟨[], by rw [loop_nil]; simp⟩
    | cons r rest => simp at h
  | succ n ih =>
    intro q E acc h
    cases q with
    | nil => exact ⟨[], by rw [loop_nil]; simp⟩
    | cons r rest =>
      rw [loop_cons]
      have hm : (rest ++ childrenOf E r).length
          + totalEdges (clearKey E r) ≤ n := by
        have h2 := childrenOf_clearKey_le E r
        simp only [List.length_append, List.length_cons] at h ⊢
        omega
      obtain ⟨t, ht⟩ := ih (rest ++ childrenOf E r) (clearKey E r)
        (acc ++ [r]) hm
      exact ⟨[r] ++ t, by rw [ht]; simp⟩

theorem loop_prefix (q : List String) (E : Edges) (acc : List String) :
    ∃ t, pseudoTopSortLoop q E acc = acc ++ t :=
  loop_prefix_fuel (q.length + totalEdges E) q E acc (Nat.le_refl _)

theorem loop_mem_fuel : ∀ (n : Nat) (q : List String) (E : Edges)
    (acc : List String) (x : String), q.length + totalEdges E ≤ n →
    x ∈ q → x ∈ pseudoTopSortLoop q E acc := by
  intro n
  induction n with
  | zero =>
    intro q E acc x h hx
    cases q with
    | nil => simp at hx
    | cons r rest => simp at h
  | succ n ih =>
    intro q E acc x h hx
    cases q with
    | nil => simp at hx
    | cons r rest =>
      rw [loop_cons]
      have hm : (rest ++ childrenOf E r).length
          + totalEdges (clearKey E r) ≤ n := by
        have h2 := childrenOf_clearKey_le E r
        simp only [List.length_append, List.length_cons] at h ⊢
        omega
      rcases List.mem_cons.mp hx with rfl | hx2
      · obtain ⟨t, ht⟩ := loop_prefix (rest ++ childrenOf E x)
          (clearKey E x) (acc ++ [x])
        rw [ht]
        simp
      · exact ih _ _ _ x hm (List.mem_append.mpr (Or.inl hx2))

theorem loop_mem (q : List String) (E : Edges) (acc : List String)
    (x : String) (hx : x ∈ q) : x ∈ pseudoTopSortLoop q E acc :=
  loop_mem_fuel (q.length + totalEdges E) q E acc x (Nat.le_refl _) hx

/-- The edge map after processing the roots in `acc`: every entry whose key
has been processed holds an empty child set. -/
def clearList (edges : Edges) (acc : List String) : Edges :=
  List.map (fun e =>
    if acc.contains e.1 then (e.1, ([] : List String)) else e) edges

theorem clearList_nil (edges : Edges) : clearList edges [] = edges := by
  simp [clearList]

theorem clearKey_clearList (edges : Edges) (acc : List String) (r : String) :
    clearKey (clearList edges acc) r = clearList edges (acc ++ [r]) := by
  simp only [clearKey, clearList, List.map_map]
  refine List.map_congr_left (fun e _ => ?_)
  simp only [Function.comp_apply]
  by_cases h1 : e.1 ∈ acc
  · by_cases h3 : e.1 = r
    · subst h3
      simp [h1]
    · simp [h1, h3]
  · by_cases h3 : e.1 = r
    · subst h3
      simp [h1]
    · simp [h1, h3]

theorem clearList_cons (e : String × List String) (rest : Edges)
    (acc : List String) :
    clearList (e :: rest) acc
      = (if acc.contains e.1 then (e.1, ([] : List String)) else e)
          :: clearList rest acc := rfl

theorem childrenOf_cons_ne (e : String × List String) (rest : Edges)
    (r : String) (he : ¬ e.1 = r) :
    childrenOf (e :: rest) r = childrenOf rest r := by
  simp [childrenOf, List.find?_cons, he]

theorem childrenOf_clearList (edges : Edges) (acc : List String) (r : String)
    (h : acc.contains r = false) :
    childrenOf (clearList edges acc) r = childrenOf edges r := by
  induction edges with
  | nil => rfl
  | cons e rest ih =>
    rw [clearList_cons]
    by_cases he : e.1 = r
    · have hacc : acc.contains e.1 = false := he ▸ h
      rw [hacc]
      simp only [Bool.false_eq_true, if_false]
      simp [childrenOf, List.find?_cons, he]
    · cases hacc : acc.contains e.1 with
      | true =>
        simp only [if_true]
        rw [childrenOf_cons_ne _ _ _ (by simpa using he),
          childrenOf_cons_ne e rest r he]
        exact ih
      | false =>
        simp only [Bool.false_eq_true, if_false]
        rw [childrenOf_cons_ne e _ r he, childrenOf_cons_ne e rest r he]
        exact ih

theorem find?_eq_of_mem_keys_nodup (edges : Edges) (r : String)
    (cs : List String) (hmem : (r, cs) ∈ edges)
    (hnd : (edges.map Prod.fst).Nodup) :
    List.find? (fun e => e.1 = r) edges = some (r, cs) := by
  induction edges with
  | nil => simp at hmem
  | cons e rest ih =>
    rcases List.mem_cons.mp hmem with rfl | hmem2
    · simp [List.find?_cons]
    · have hkey : e.1 ≠ r := by
        intro hc
        have hr : r ∈ rest.map Prod.fst :=
          List.mem_map.mpr ⟨(r, cs), hmem2, rfl⟩
        rw [List.map_cons] at hnd
        exact (List.nodup_cons.mp hnd).1 (hc ▸ hr)
      have hstep : List.find? (fun e => e.1 = r) (e :: rest)
          = List.find? (fun e2 => e2.1 = r) rest := by
        simp [List.find?_cons, hkey]
      rw [hstep]
      refine ih hmem2 ?_
      rw [List.map_cons] at hnd
      exact hnd.of_cons

/-- Number of incoming edges of a node: how many entries of the edge map
contain it among their children. -/
def incomingCount (edges : Edges) (c : String) : Nat :=
  edges.countP (fun e => e.2.contains c)

theorem incomingCount_pos (edges : Edges) (p : String) (cs : List String)
    (c : String) (hmem : (p, cs) ∈ edges) (hc : c ∈ cs) :
    1 ≤ incomingCount edges c := by
  rw [incomingCount]
  refine List.countP_pos_iff.mpr ⟨(p, cs), hmem, ?_⟩
  simpa using hc

theorem incomingCount_two (edges : Edges) (c : String)
    (a b : String × List String) (ha : a ∈ edges) (hb : b ∈ edges)
    (hne : a ≠ b) (pa : c ∈ a.2) (pb : c ∈ b.2) :
    2 ≤ incomingCount edges c := by
  induction edges with
  | nil => simp at ha
  | cons e rest ih =>
    rw [incomingCount, List.countP_cons]
    rcases List.mem_cons.mp ha with rfl | ha2
    · have hb2 : b ∈ rest := by
        rcases List.mem_cons.mp hb with hba | h2
        · exact absurd hba.symm hne
        · exact h2
      have h1 : 1 ≤ rest.countP (fun e2 => e2.2.contains c) :=
        List.countP_pos_iff.mpr ⟨b, hb2, by simpa using pb⟩
      have hpa : (a.2.contains c) = true := by simpa using pa
      simp only [hpa, if_true]
      omega
    · rcases List.mem_cons.mp hb with rfl | hb2
      · have h1 : 1 ≤ rest.countP (fun e2 => e2.2.contains c) :=
          List.countP_pos_iff.mpr ⟨a, ha2, by simpa using pa⟩
        have hpb : (b.2.contains c) = true := by simpa using pb
        simp only [hpb, if_true]
        omega
      · have h2 := ih ha2 hb2
        rw [incomingCount] at h2
        omega

theorem indexOf_append_cons_self (acc t : List String) (r : String)
    (h : r ∉ acc) : (acc ++ r :: t).indexOf r = acc.length := by
  rw [List.indexOf_append_of_not_mem h, List.indexOf_cons_self]
  omega

theorem indexOf_append_cons_ne (acc t : List String) (r c : String)
    (hacc : c ∉ acc) (hne : c ≠ r) :
    (acc ++ r :: t).indexOf c = acc.length + 1 + t.indexOf c := by
  rw [List.indexOf_append_of_not_mem hacc,
    List.indexOf_cons_ne t (Ne.symm hne)]
  omega

theorem childrenOf_entry (edges : Edges) (r : String)
    (h : childrenOf edges r ≠ []) : (r, childrenOf edges r) ∈ edges := by
  cases hfind : List.find? (fun e => e.1 = r) edges with
  | none =>
    rw [childrenOf, hfind] at h
    simp at h
  | some er =>
    obtain ⟨er1, er2⟩ := er
    have her1 : er1 = r := by simpa using List.find?_some hfind
    subst her1
    have hch : childrenOf edges er1 = er2 := by
      rw [childrenOf, hfind]
      rfl
    rw [hch]
    exact List.mem_of_find?_eq_some hfind

theorem childrenOf_eq_of_mem (edges : Edges) (r : String) (cs : List String)
    (hedge : (r, cs) ∈ edges) (hkeys : (edges.map Prod.fst).Nodup) :
    childrenOf edges r = cs := by
  rw [childrenOf, find?_eq_of_mem_keys_nodup edges r cs hedge hkeys]
  rfl

/-- Reachability from the root set along the edge map. -/
inductive ReachableFrom (edges : Edges) (roots : List String) :
    String → Prop where
  | root (r : String) : r ∈ roots → ReachableFrom edges roots r
  | step (p : String) (cs : List String) (c : String) :
      ReachableFrom edges roots p → (p, cs) ∈ edges → c ∈ cs →
      ReachableFrom edges roots c

/-- Main loop invariant of the forest topological sort: with unique source
keys, duplicate-free child sets, at most one incoming edge per node, a
duplicate-free processing state, and every queued or processed node being
either incoming-free or the child of an already processed node, every edge
whose source is emitted after the processed prefix has its target emitted
later than its source. -/
theorem loop_order_fuel (edges : Edges)
    (hkeys : (edges.map Prod.fst).Nodup)
    (hcs : ∀ e ∈ edges, e.2.Nodup)
    (hin : ∀ x, incomingCount edges x ≤ 1) :
    ∀ (n : Nat) (q acc : List String),
      q.length + totalEdges (clearList edges acc) ≤ n →
      (acc ++ q).Nodup →
      (∀ x ∈ acc ++ q, incomingCount edges x = 0
        ∨ ∃ p2 cs2, (p2, cs2) ∈ edges ∧ x ∈ cs2 ∧ p2 ∈ acc) →
      ∀ p cs c, (p, cs) ∈ edges → c ∈ cs →
        p ∈ pseudoTopSortLoop q (clearList edges acc) acc → p ∉ acc →
        c ∈ pseudoTopSortLoop q (clearList edges acc) acc
        ∧ (pseudoTopSortLoop q (clearList edges acc) acc).indexOf p
            < (pseudoTopSortLoop q (clearList edges acc) acc).indexOf c := by
  intro n
  induction n with
  | zero =>
    intro q acc hle hnd hinv p cs c hedge hc hpin hpacc
    cases q with
    | nil =>
      rw [loop_nil] at hpin
      exact absurd hpin hpacc
    | cons r rest =>
      simp only [List.length_cons] at hle
      omega
  | succ n ih =>
    intro q acc hle hnd hinv p cs c hedge hc hpin hpacc
    cases q with
    | nil =>
      rw [loop_nil] at hpin
      exact absurd hpin hpacc
    | cons r rest =>
      have hdisj : List.Disjoint acc (r :: rest) :=
        List.disjoint_of_nodup_append hnd
      have hrnacc : r ∉ acc := fun hcon => hdisj hcon (by simp)
      have hraccF : acc.contains r = false := by simpa using hrnacc
      have hchl : childrenOf (clearList edges acc) r
          = childrenOf edges r :=
        childrenOf_clearList edges acc r hraccF
      have hstep : pseudoTopSortLoop (r :: rest) (clearList edges acc) acc
          = pseudoTopSortLoop (rest ++ childrenOf edges r)
              (clearList edges (acc ++ [r])) (acc ++ [r]) := by
        rw [loop_cons, hchl, clearKey_clearList]
      have hm : (rest ++ childrenOf edges r).length
          + totalEdges (clearList edges (acc ++ [r])) ≤ n := by
        rw [← clearKey_clearList, ← hchl]
        have h2 := childrenOf_clearKey_le (clearList edges acc) r
        simp only [List.length_append, List.length_cons] at hle ⊢
        omega
      have hfresh : ∀ x ∈ childrenOf edges r, x ∉ acc ++ r :: rest := by
        intro x hx hxin
        have hne : childrenOf edges r ≠ [] := List.ne_nil_of_mem hx
        have hentry := childrenOf_entry edges r hne
        rcases hinv x hxin with h0 | ⟨p2, cs2, hp2mem, hxcs2, hp2acc⟩
        · have h1 := incomingCount_pos edges r (childrenOf edges r) x
            hentry hx
          omega
        · have hp2ne : (p2, cs2) ≠ (r, childrenOf edges r) := by
            intro hcon
            have hp2r : p2 = r := congrArg Prod.fst hcon
            exact hrnacc (hp2r ▸ hp2acc)
          have h2 := incomingCount_two edges x (p2, cs2)
            (r, childrenOf edges r) hp2mem hentry hp2ne hxcs2 hx
          have h3 := hin x
          omega
      have hchnd : (childrenOf edges r).Nodup := by
        cases hch : childrenOf edges r with
        | nil => simp
        | cons y ys =>
          have hne : childrenOf edges r ≠ [] := by rw [hch]; simp
          have hentry := childrenOf_entry edges r hne
          have := hcs (r, childrenOf edges r) hentry
          rw [hch] at this
          exact this
      have hacc_eq : acc ++ r :: rest = (acc ++ [r]) ++ rest := by
        simp
      have hnd2 : (((acc ++ [r]) ++ rest)
          ++ childrenOf edges r).Nodup := by
        refine List.Nodup.append ?_ hchnd ?_
        · rw [← hacc_eq]
          exact hnd
        · intro a ha1 ha2
          exact hfresh a ha2 (by rw [hacc_eq]; exact ha1)
      have hnd3 : ((acc ++ [r]) ++ (rest ++ childrenOf edges r)).Nodup := by
        rw [← List.append_assoc]
        exact hnd2
      have hinv2 : ∀ x ∈ (acc ++ [r]) ++ (rest ++ childrenOf edges r),
          incomingCount edges x = 0
          ∨ ∃ p2 cs2, (p2, cs2) ∈ edges ∧ x ∈ cs2 ∧ p2 ∈ acc ++ [r] := by
        intro x hxin
        rw [← List.append_assoc] at hxin
        rcases List.mem_append.mp hxin with hx1 | hx2
        · rw [← hacc_eq] at hx1
          rcases hinv x hx1 with h0 | ⟨p2, cs2, hp2mem, hxcs2, hp2acc⟩
          · exact Or.inl h0
          · exact Or.inr ⟨p2, cs2, hp2mem, hxcs2, by simp [hp2acc]⟩
        · have hne : childrenOf edges r ≠ [] := List.ne_nil_of_mem hx2
          exact Or.inr ⟨r, childrenOf edges r,
            childrenOf_entry edges r hne, hx2, by simp⟩
      by_cases hpr : p = r
      · subst hpr
        have hcseq : childrenOf edges p = cs :=
          childrenOf_eq_of_mem edges p cs hedge hkeys
        have hcq : c ∈ rest ++ childrenOf edges p := by
          rw [hcseq]
          exact List.mem_append.mpr (Or.inr hc)
        have hcout : c ∈ pseudoTopSortLoop (rest ++ childrenOf edges p)
            (clearList edges (acc ++ [p])) (acc ++ [p]) :=
          loop_mem _ _ _ c hcq
        obtain ⟨t, ht⟩ := loop_prefix (rest ++ childrenOf edges p)
          (clearList edges (acc ++ [p])) (acc ++ [p])
        have hcfr : c ∉ acc ++ p :: rest := by
          refine hfresh c ?_
          rw [hcseq]
          exact hc
        have hcnacc : c ∉ acc := fun hcon => hcfr (by simp [hcon])
        have hcnr : c ≠ p := fun hcon => hcfr (by simp [hcon])
        have hout_eq : pseudoTopSortLoop (rest ++ childrenOf edges p)
            (clearList edges (acc ++ [p])) (acc ++ [p])
            = acc ++ p :: t := by
          rw [ht]
          simp
        constructor
        · rw [hstep]
          exact hcout
        · rw [hstep, hout_eq]
          rw [indexOf_append_cons_self acc t p hrnacc,
            indexOf_append_cons_ne acc t p c hcnacc hcnr]
          omega
      · have hres := ih (rest ++ childrenOf edges r) (acc ++ [r]) hm
          hnd3 hinv2 p cs c hedge hc (by rw [← hstep]; exact hpin)
          (by
            intro hcon
            rcases List.mem_append.mp hcon with h1 | h2
            · exact hpacc h1
            · exact hpr (by simpa using h2))
        rw [hstep]
        exact hres

/-- Claim C9: `pseudoTopSort` on nodes A,B,C with edges A→B, A→C and root
A returns exactly ["A","B","C"] — an ordering of length 3 starting with A
in which B and C occur after A; and in general, under the documented
precondition (unique object keys, duplicate-free child sets, at most one
incoming edge per node, roots without incoming edges, duplicate-free
roots), every node reachable from the roots appears in the output, after
its parent. -/
theorem C9_pseudoTopSort :
    (pseudoTopSort ["A", "B", "C"] [("A", ["B", "C"])] ["A"]
        = ["A", "B", "C"]
      ∧ (pseudoTopSort ["A", "B", "C"] [("A", ["B", "C"])] ["A"]).length = 3
      ∧ (pseudoTopSort ["A", "B", "C"] [("A", ["B", "C"])] ["A"]).headD ""
          = "A"
      ∧ (pseudoTopSort ["A", "B", "C"] [("A", ["B", "C"])] ["A"]).indexOf
            "A"
          < (pseudoTopSort ["A", "B", "C"] [("A", ["B", "C"])]
              ["A"]).indexOf "B"
      ∧ (pseudoTopSort ["A", "B", "C"] [("A", ["B", "C"])] ["A"]).indexOf
            "A"
          < (pseudoTopSort ["A", "B", "C"] [("A", ["B", "C"])]
              ["A"]).indexOf "C")
    ∧ (∀ (nodes : List String) (edges : Edges) (roots : List String),
        (edges.map Prod.fst).Nodup →
        (∀ e ∈ edges, e.2.Nodup) →
        (∀ x, incomingCount edges x ≤ 1) →
        (∀ r ∈ roots, incomingCount edges r = 0) →
        roots.Nodup →
        (∀ c, ReachableFrom edges roots c →
            c ∈ pseudoTopSort nodes edges roots)
        ∧ (∀ p cs c, ReachableFrom edges roots p → (p, cs) ∈ edges →
            c ∈ cs →
            (pseudoTopSort nodes edges roots).indexOf p
              < (pseudoTopSort nodes edges roots).indexOf c)) := by
  constructor
  · have hconc : pseudoTopSort ["A", "B", "C"] [("A", ["B", "C"])] ["A"]
        = ["A", "B", "C"] := by
      show pseudoTopSortLoop ["A"] [("A", ["B", "C"])] [] = ["A", "B", "C"]
      rw [loop_cons]
      show pseudoTopSortLoop ["B", "C"] [("A", [])] ["A"] = ["A", "B", "C"]
      rw [loop_cons]
      show pseudoTopSortLoop ["C"] [("A", [])] ["A", "B"] = ["A", "B", "C"]
      rw [loop_cons]
      show pseudoTopSortLoop [] [("A", [])] ["A", "B", "C"]
        = ["A", "B", "C"]
      rw [loop_nil]
    refine ⟨hconc, ?_, ?_, ?_, ?_⟩ <;> rw [hconc] <;> decide
  · intro nodes edges roots hkeys hcs hin hroots0 hrnd
    have key : ∀ p cs c, (p, cs) ∈ edges → c ∈ cs →
        p ∈ pseudoTopSort nodes edges roots →
        c ∈ pseudoTopSort nodes edges roots
        ∧ (pseudoTopSort nodes edges roots).indexOf p
            < (pseudoTopSort nodes edges roots).indexOf c := by
      intro p cs c hedge hc hpin
      have h0 := loop_order_fuel edges hkeys hcs hin
        (roots.length + totalEdges (clearList edges [])) roots []
        (Nat.le_refl _) (by simpa using hrnd)
        (by
          intro x hx
          exact Or.inl (hroots0 x (by simpa using hx)))
        p cs c hedge hc
        (by rw [clearList_nil]; exact hpin) (by simp)
      rw [clearList_nil] at h0
      exact h0
    have reach_mem : ∀ c, ReachableFrom edges roots c →
        c ∈ pseudoTopSort nodes edges roots := by
      intro c hr
      induction hr with
      | root r hrmem => exact loop_mem roots edges [] r hrmem
      | step p cs c hp hedge hc ihp => exact (key p cs c hedge hc ihp).1
    refine ⟨reach_mem, ?_⟩
    intro p cs c hp hedge hc
    exact (key p cs c hedge hc (reach_mem p hp)).2

/-- Witness for C9's general part at the concrete A,B,C instance. -/
theorem C9_pseudoTopSort_witness :
    "B" ∈ pseudoTopSort ["A", "B", "C"] [("A", ["B", "C"])] ["A"]
    ∧ (pseudoTopSort ["A", "B", "C"] [("A", ["B", "C"])] ["A"]).indexOf "A"
        < (pseudoTopSort ["A", "B", "C"] [("A", ["B", "C"])]
            ["A"]).indexOf "B" := by
  have hin : ∀ x, incomingCount [("A", ["B", "C"])] x ≤ 1 := by
    intro x
    rw [incomingCount, List.countP_cons, List.countP_nil]
    cases h : (["B", "C"].contains x) with
    | true => simp [h]
    | false => simp [h]
  have h := C9_pseudoTopSort.2 ["A", "B", "C"] [("A", ["B", "C"])] ["A"]
    (by decide) (by decide) hin (by decide) (by decide)
  have hreach : ReachableFrom [("A", ["B", "C"])] ["A"] "A" :=
    ReachableFrom.root "A" (by decide)
  exact ⟨h.1 "B" (ReachableFrom.step "A" ["B", "C"] "B" hreach (by decide)
      (by decide)),
    h.2 "A" ["B", "C"] "B" hreach (by decide) (by decide)⟩

end JsonApi
